import Mathlib

/-!
Shallow embedding of the Core-War-LLM-Evolution repository
(`src/corewar/mars.py`, `src/corewar/battle.py`, `src/corewar/redcode.py`,
`src/evolution/fitness.py`, `src/evolution/map_elites.py`,
`src/llm_interface/base.py`) together with theorems settling the frozen
claims about it.

Python integers are modelled by `Int`; Python `a % b` is `Int.fmod a b`
(floor-remainder, sign of the divisor) and Python `a // b` is
`Int.fdiv a b` (floor division).  Python `dict`s keyed by warrior id or
cell index are modelled as association lists with unique keys, with
insertion-order semantics (`dictGet`, `dictSet`, `dictModify`).
Python `set`s are `Finset`.  All definitions are computable so concrete
scenarios evaluate by `decide` and `rfl`.
-/

namespace CoreWar

/-- Opcodes of `redcode.py` (`class OpCode`). -/
inductive OpCode
  | DAT | MOV | ADD | SUB | MUL | DIV | MOD
  | JMP | JMZ | JMN | DJN | SPL
  | CMP | SEQ | SNE | SLT | LDP | STP | NOP
deriving DecidableEq, Repr

/-- Modifiers of `redcode.py` (`class Modifier`). -/
inductive Modifier
  | A | B | AB | BA | F | X | I
deriving DecidableEq, Repr

/-- Addressing modes of `redcode.py` (`class AddressMode`). -/
inductive AddressMode
  | IMMEDIATE | DIRECT | A_INDIRECT | B_INDIRECT
  | A_PREDEC | B_PREDEC | A_POSTINC | B_POSTINC
deriving DecidableEq, Repr

/-- Mirrors `redcode.py` `@dataclass Instruction`; `.copy()` is the identity in the
functional model, so it is not modelled separately. -/
structure Instruction where
  opcode : OpCode := OpCode.DAT
  modifier : Modifier := Modifier.F
  a_mode : AddressMode := AddressMode.DIRECT
  a_value : Int := 0
  b_mode : AddressMode := AddressMode.DIRECT
  b_value : Int := 0
deriving DecidableEq, Repr

instance : Inhabited Instruction := ⟨{}⟩

/-- Mirrors `redcode.py` `@dataclass Warrior` (static program). -/
structure Warrior where
  name : String := "Unknown"
  author : String := "Unknown"
  instructions : List Instruction := []
  start_offset : Int := 0
deriving DecidableEq, Repr

/-- Lookup in a Python `dict` modelled as an association list
(first entry with the key wins; keys are kept unique by `dictSet`). -/
def dictGet {κ α : Type} [DecidableEq κ] (l : List (κ × α)) (k : κ) : Option α :=
  (l.find? (fun p => p.1 = k)).map (fun p => p.2)

/-- Python `d[k] = v`: replace in place if present, else append
(insertion-order semantics of Python dicts). -/
def dictSet {κ α : Type} [DecidableEq κ] (l : List (κ × α)) (k : κ) (v : α) :
    List (κ × α) :=
  if (l.find? (fun p => p.1 = k)).isSome then
    l.map (fun p => if p.1 = k then (k, v) else p)
  else l ++ [(k, v)]

/-- In-place mutation of the value stored under `k` (Python attribute update
on the object held in the dict). -/
def dictModify {κ α : Type} [DecidableEq κ] (l : List (κ × α)) (k : κ)
    (f : α → α) : List (κ × α) :=
  l.map (fun p => if p.1 = k then (p.1, f p.2) else p)

/-- Mirrors `mars.py` `@dataclass WarriorState` (runtime state of one warrior).
`processes` is the deque of program counters (front = head). -/
structure WarriorState where
  warrior_id : Int
  name : String := "Unknown"
  processes : List Int := []
  is_alive : Bool := true
  memory_accessed : Finset Int := ∅
  threads_spawned : Int := 0
  instructions_executed : Int := 0
  memory_writes : Int := 0
deriving DecidableEq

/-- Mirrors `mars.py` `class MARS` state.  `core` and `ownership` are the Python
lists (length `core_size`). -/
structure MARS where
  core_size : Int := 8000
  max_cycles : Int := 80000
  max_processes : Int := 8000
  max_length : Int := 100
  min_distance : Int := 100
  core : List Instruction := []
  ownership : List Int := []
  warriors : List (Int × WarriorState) := []
  warrior_order : List Int := []
  current_warrior_idx : Nat := 0
  cycle : Int := 0
deriving DecidableEq

/-- Mirrors `MARS.__init__`: fresh machine with a DAT-filled core and all cells
unowned (`-1`). -/
def mkMARS (core_size max_cycles max_processes max_length min_distance : Int) :
    MARS :=
  { core_size := core_size
    max_cycles := max_cycles
    max_processes := max_processes
    max_length := max_length
    min_distance := min_distance
    core := List.replicate core_size.toNat {}
    ownership := List.replicate core_size.toNat (-1) }

/-- Mirrors `MARS._normalize`: Python `address % core_size`. -/
def MARS.normalize (m : MARS) (address : Int) : Int :=
  Int.fmod address m.core_size

/-- Mirrors `MARS._read`. -/
def MARS.mread (m : MARS) (address : Int) : Instruction :=
  m.core.getD (m.normalize address).toNat {}

/-- Ownership tag of a cell (used to state properties; reads the
`ownership` list the way `_read` reads `core`). -/
def MARS.ownerAt (m : MARS) (address : Int) : Int :=
  m.ownership.getD (m.normalize address).toNat (-1)

/-- Mutate one warrior's state in the `warriors` dict. -/
def MARS.updateWarrior (m : MARS) (wid : Int) (f : WarriorState → WarriorState) :
    MARS :=
  { m with warriors := dictModify m.warriors wid f }

/-- Mirrors `self.warriors[wid]` lookup (`wid in self.warriors` is `isSome`). -/
def MARS.lookupWarrior (m : MARS) (wid : Int) : Option WarriorState :=
  dictGet m.warriors wid

/-- Mirrors `MARS._write`: store the instruction, tag ownership, and if the writer
is registered bump its `memory_writes` and accessed set. -/
def MARS.mwrite (m : MARS) (address : Int) (instruction : Instruction)
    (wid : Int) : MARS :=
  let addr := m.normalize address
  let m1 := { m with
    core := m.core.set addr.toNat instruction
    ownership := m.ownership.set addr.toNat wid }
  if (m.lookupWarrior wid).isSome then
    m1.updateWarrior wid (fun ws =>
      { ws with
        memory_writes := ws.memory_writes + 1
        memory_accessed := insert addr ws.memory_accessed })
  else m1

/-- Mirrors `MARS._resolve_address`: returns the updated machine (pre-decrement /
post-increment modes write), the resolved pointer and the field value.
The Python `is_a_field` parameter is unused in the source and dropped. -/
def MARS.resolveAddress (m : MARS) (base_pc : Int) (mode : AddressMode)
    (value : Int) (wid : Int) : MARS × Int × Int :=
  let base_addr := m.normalize (base_pc + value)
  match mode with
  | AddressMode.IMMEDIATE => (m, base_pc, value)
  | AddressMode.DIRECT => (m, base_addr, value)
  | AddressMode.A_INDIRECT =>
      let target := m.mread base_addr
      (m, m.normalize (base_addr + target.a_value), target.a_value)
  | AddressMode.B_INDIRECT =>
      let target := m.mread base_addr
      (m, m.normalize (base_addr + target.b_value), target.b_value)
  | AddressMode.A_PREDEC =>
      let target0 := m.mread base_addr
      let target := { target0 with
        a_value := Int.fmod (target0.a_value - 1) m.core_size }
      let m1 := m.mwrite base_addr target wid
      (m1, m.normalize (base_addr + target.a_value), target.a_value)
  | AddressMode.B_PREDEC =>
      let target0 := m.mread base_addr
      let target := { target0 with
        b_value := Int.fmod (target0.b_value - 1) m.core_size }
      let m1 := m.mwrite base_addr target wid
      (m1, m.normalize (base_addr + target.b_value), target.b_value)
  | AddressMode.A_POSTINC =>
      let target0 := m.mread base_addr
      let result_addr := m.normalize (base_addr + target0.a_value)
      let result_val := target0.a_value
      let target := { target0 with
        a_value := Int.fmod (target0.a_value + 1) m.core_size }
      let m1 := m.mwrite base_addr target wid
      (m1, result_addr, result_val)
  | AddressMode.B_POSTINC =>
      let target0 := m.mread base_addr
      let result_addr := m.normalize (base_addr + target0.b_value)
      let result_val := target0.b_value
      let target := { target0 with
        b_value := Int.fmod (target0.b_value + 1) m.core_size }
      let m1 := m.mwrite base_addr target wid
      (m1, result_addr, result_val)

/-- Mirrors `MARS.load_warrior` inner copy loop: write instruction `i` of the list
at `normalize (position + i)` and tag ownership (direct list writes, not
`_write`, exactly as in the source). -/
def MARS.loadCells (m : MARS) (wid position : Int) :
    List Instruction → Nat → MARS
  | [], _ => m
  | instr :: rest, i =>
      let addr := (m.normalize (position + (i : Int))).toNat
      MARS.loadCells
        { m with
          core := m.core.set addr instr
          ownership := m.ownership.set addr wid }
        wid position rest (i + 1)

/-- Mirrors `MARS.load_warrior`: reject over-long warriors, else copy the program
into the core, register a `WarriorState` with a single process at
`normalize (position + start_offset)` and append to the round-robin order. -/
def MARS.loadWarrior (m : MARS) (w : Warrior) (position : Int) (wid : Int) :
    MARS × Bool :=
  if (w.instructions.length : Int) > m.max_length then (m, false)
  else
    let m1 := m.loadCells wid position w.instructions 0
    let start_pc := m1.normalize (position + w.start_offset)
    let st : WarriorState := { warrior_id := wid, name := w.name,
                               processes := [start_pc] }
    ({ m1 with
        warriors := dictSet m1.warriors wid st
        warrior_order := m1.warrior_order ++ [wid] }, true)

/-- Field projection of `MARS._execute_mov` (value of `new_dst` just before
the write). -/
def movResult (modifier : Modifier) (src dst : Instruction) : Instruction :=
  match modifier with
  | Modifier.A => { dst with a_value := src.a_value }
  | Modifier.B => { dst with b_value := src.b_value }
  | Modifier.AB => { dst with b_value := src.a_value }
  | Modifier.BA => { dst with a_value := src.b_value }
  | Modifier.F => { dst with a_value := src.a_value, b_value := src.b_value }
  | Modifier.X => { dst with a_value := src.b_value, b_value := src.a_value }
  | Modifier.I => src

/-- Mirrors `new_dst` of `MARS._execute_add` (all sums reduced by `% core_size`). -/
def addResult (M : Int) (modifier : Modifier) (src dst : Instruction) :
    Instruction :=
  match modifier with
  | Modifier.A => { dst with a_value := Int.fmod (dst.a_value + src.a_value) M }
  | Modifier.B => { dst with b_value := Int.fmod (dst.b_value + src.b_value) M }
  | Modifier.AB => { dst with b_value := Int.fmod (dst.b_value + src.a_value) M }
  | Modifier.BA => { dst with a_value := Int.fmod (dst.a_value + src.b_value) M }
  | Modifier.F | Modifier.I =>
      { dst with a_value := Int.fmod (dst.a_value + src.a_value) M
                 b_value := Int.fmod (dst.b_value + src.b_value) M }
  | Modifier.X =>
      { dst with a_value := Int.fmod (dst.a_value + src.b_value) M
                 b_value := Int.fmod (dst.b_value + src.a_value) M }

/-- Mirrors `new_dst` of `MARS._execute_sub`. -/
def subResult (M : Int) (modifier : Modifier) (src dst : Instruction) :
    Instruction :=
  match modifier with
  | Modifier.A => { dst with a_value := Int.fmod (dst.a_value - src.a_value) M }
  | Modifier.B => { dst with b_value := Int.fmod (dst.b_value - src.b_value) M }
  | Modifier.AB => { dst with b_value := Int.fmod (dst.b_value - src.a_value) M }
  | Modifier.BA => { dst with a_value := Int.fmod (dst.a_value - src.b_value) M }
  | Modifier.F | Modifier.I =>
      { dst with a_value := Int.fmod (dst.a_value - src.a_value) M
                 b_value := Int.fmod (dst.b_value - src.b_value) M }
  | Modifier.X =>
      { dst with a_value := Int.fmod (dst.a_value - src.b_value) M
                 b_value := Int.fmod (dst.b_value - src.a_value) M }

/-- Mirrors `new_dst` of `MARS._execute_mul`. -/
def mulResult (M : Int) (modifier : Modifier) (src dst : Instruction) :
    Instruction :=
  match modifier with
  | Modifier.A => { dst with a_value := Int.fmod (dst.a_value * src.a_value) M }
  | Modifier.B => { dst with b_value := Int.fmod (dst.b_value * src.b_value) M }
  | Modifier.AB => { dst with b_value := Int.fmod (dst.b_value * src.a_value) M }
  | Modifier.BA => { dst with a_value := Int.fmod (dst.a_value * src.b_value) M }
  | Modifier.F | Modifier.I =>
      { dst with a_value := Int.fmod (dst.a_value * src.a_value) M
                 b_value := Int.fmod (dst.b_value * src.b_value) M }
  | Modifier.X =>
      { dst with a_value := Int.fmod (dst.a_value * src.b_value) M
                 b_value := Int.fmod (dst.b_value * src.a_value) M }

/-- Mirrors `MARS._execute_div` up to the write: `none` when a selected divisor
field is zero (the Python function returns `False`), otherwise the written
`new_dst`.  Quotients use Python floor division and are NOT reduced
modulo the core size. -/
def divResult (modifier : Modifier) (src dst : Instruction) :
    Option Instruction :=
  match modifier with
  | Modifier.A =>
      if src.a_value = 0 then none
      else some { dst with a_value := Int.fdiv dst.a_value src.a_value }
  | Modifier.B =>
      if src.b_value = 0 then none
      else some { dst with b_value := Int.fdiv dst.b_value src.b_value }
  | Modifier.AB =>
      if src.a_value = 0 then none
      else some { dst with b_value := Int.fdiv dst.b_value src.a_value }
  | Modifier.BA =>
      if src.b_value = 0 then none
      else some { dst with a_value := Int.fdiv dst.a_value src.b_value }
  | Modifier.F | Modifier.I =>
      if src.a_value = 0 ∨ src.b_value = 0 then none
      else some { dst with a_value := Int.fdiv dst.a_value src.a_value
                           b_value := Int.fdiv dst.b_value src.b_value }
  | Modifier.X =>
      if src.b_value = 0 ∨ src.a_value = 0 then none
      else some { dst with a_value := Int.fdiv dst.a_value src.b_value
                           b_value := Int.fdiv dst.b_value src.a_value }

/-- Mirrors `MARS._execute_mod` up to the write (Python `%`, floor-remainder). -/
def modResult (modifier : Modifier) (src dst : Instruction) :
    Option Instruction :=
  match modifier with
  | Modifier.A =>
      if src.a_value = 0 then none
      else some { dst with a_value := Int.fmod dst.a_value src.a_value }
  | Modifier.B =>
      if src.b_value = 0 then none
      else some { dst with b_value := Int.fmod dst.b_value src.b_value }
  | Modifier.AB =>
      if src.a_value = 0 then none
      else some { dst with b_value := Int.fmod dst.b_value src.a_value }
  | Modifier.BA =>
      if src.b_value = 0 then none
      else some { dst with a_value := Int.fmod dst.a_value src.b_value }
  | Modifier.F | Modifier.I =>
      if src.a_value = 0 ∨ src.b_value = 0 then none
      else some { dst with a_value := Int.fmod dst.a_value src.a_value
                           b_value := Int.fmod dst.b_value src.b_value }
  | Modifier.X =>
      if src.b_value = 0 ∨ src.a_value = 0 then none
      else some { dst with a_value := Int.fmod dst.a_value src.b_value
                           b_value := Int.fmod dst.b_value src.a_value }

/-- Mirrors `MARS._is_zero`. -/
def isZero (modifier : Modifier) (instr : Instruction) : Bool :=
  match modifier with
  | Modifier.A | Modifier.BA => instr.a_value = 0
  | Modifier.B | Modifier.AB => instr.b_value = 0
  | _ => instr.a_value = 0 ∧ instr.b_value = 0

/-- Mirrors `MARS._compare_equal`. -/
def compareEqual (modifier : Modifier) (src dst : Instruction) : Bool :=
  match modifier with
  | Modifier.A => src.a_value = dst.a_value
  | Modifier.B => src.b_value = dst.b_value
  | Modifier.AB => src.a_value = dst.b_value
  | Modifier.BA => src.b_value = dst.a_value
  | Modifier.F => src.a_value = dst.a_value ∧ src.b_value = dst.b_value
  | Modifier.X => src.a_value = dst.b_value ∧ src.b_value = dst.a_value
  | Modifier.I =>
      src.opcode = dst.opcode ∧ src.modifier = dst.modifier ∧
      src.a_mode = dst.a_mode ∧ src.a_value = dst.a_value ∧
      src.b_mode = dst.b_mode ∧ src.b_value = dst.b_value

/-- Mirrors `MARS._compare_less_than`. -/
def compareLessThan (modifier : Modifier) (src dst : Instruction) : Bool :=
  match modifier with
  | Modifier.A => src.a_value < dst.a_value
  | Modifier.B => src.b_value < dst.b_value
  | Modifier.AB => src.a_value < dst.b_value
  | Modifier.BA => src.b_value < dst.a_value
  | _ => src.a_value < dst.a_value ∧ src.b_value < dst.b_value

/-- The decrement step of the DJN branch of `MARS._execute_one`. -/
def djnDec (M : Int) (modifier : Modifier) (dst : Instruction) : Instruction :=
  match modifier with
  | Modifier.A | Modifier.BA =>
      { dst with a_value := Int.fmod (dst.a_value - 1) M }
  | Modifier.B | Modifier.AB =>
      { dst with b_value := Int.fmod (dst.b_value - 1) M }
  | _ => { dst with a_value := Int.fmod (dst.a_value - 1) M
                    b_value := Int.fmod (dst.b_value - 1) M }

/-- Mirrors `MARS._execute_mov` (computes `new_dst` then `_write`s it at `b_addr`). -/
def MARS.executeMov (m : MARS) (modifier : Modifier) (src dst : Instruction)
    (b_addr wid : Int) : MARS :=
  m.mwrite b_addr (movResult modifier src dst) wid

/-- Mirrors `MARS._execute_add`. -/
def MARS.executeAdd (m : MARS) (modifier : Modifier) (src dst : Instruction)
    (b_addr wid : Int) : MARS :=
  m.mwrite b_addr (addResult m.core_size modifier src dst) wid

/-- Mirrors `MARS._execute_sub`. -/
def MARS.executeSub (m : MARS) (modifier : Modifier) (src dst : Instruction)
    (b_addr wid : Int) : MARS :=
  m.mwrite b_addr (subResult m.core_size modifier src dst) wid

/-- Mirrors `MARS._execute_mul`. -/
def MARS.executeMul (m : MARS) (modifier : Modifier) (src dst : Instruction)
    (b_addr wid : Int) : MARS :=
  m.mwrite b_addr (mulResult m.core_size modifier src dst) wid

/-- Mirrors `MARS._execute_div`: `false` (and no write) on a zero selected divisor. -/
def MARS.executeDiv (m : MARS) (modifier : Modifier) (src dst : Instruction)
    (b_addr wid : Int) : MARS × Bool :=
  match divResult modifier src dst with
  | none => (m, false)
  | some new_dst => (m.mwrite b_addr new_dst wid, true)

/-- Mirrors `MARS._execute_mod`. -/
def MARS.executeMod (m : MARS) (modifier : Modifier) (src dst : Instruction)
    (b_addr wid : Int) : MARS × Bool :=
  match modResult modifier src dst with
  | none => (m, false)
  | some new_dst => (m.mwrite b_addr new_dst wid, true)

/-- Append a program counter to a warrior's process deque. -/
def MARS.appendProc (m : MARS) (wid pc : Int) : MARS :=
  m.updateWarrior wid (fun w => { w with processes := w.processes ++ [pc] })

/-- Bundles the fetch-and-resolve phase of `MARS._execute_one`
(lines 226-235): machine after both operand resolutions, fetched
instruction, `next_pc` and the two resolved pointers/values. -/
structure ExecCtx where
  m : MARS
  instr : Instruction
  next_pc : Int
  a_addr : Int
  a_val : Int
  b_addr : Int
  b_val : Int

/-- Fetch + operand resolution of `MARS._execute_one`.  In the source
`instr` is an alias of the core cell at `pc`, so a pre-decrement /
post-increment A-operand that lands on `pc` mutates the very fields the
B-operand resolution then reads; re-reading the cell after the A-operand
resolution reproduces that aliasing exactly (`_write` stores a copy whose
fields equal the mutated object's, and opcode/modifier are never
mutated). -/
def MARS.decodeStep (m : MARS) (pc wid : Int) : ExecCtx :=
  let instr := m.mread pc
  let next_pc := m.normalize (pc + 1)
  let r1 := m.resolveAddress pc instr.a_mode instr.a_value wid
  let instr1 := r1.1.mread pc
  let r2 := r1.1.resolveAddress pc instr1.b_mode instr1.b_value wid
  { m := r2.1, instr := instr, next_pc := next_pc,
    a_addr := r1.2.1, a_val := r1.2.2, b_addr := r2.2.1, b_val := r2.2.2 }

/-- Opcode dispatch of `MARS._execute_one` (lines 238-333), applied to
the post-resolution machine. -/
def MARS.execDispatch (m : MARS) (wid : Int) (instr : Instruction)
    (next_pc a_addr b_addr : Int) : MARS :=
  let src := m.mread a_addr
  let dst := m.mread b_addr
  match instr.opcode with
  | OpCode.DAT => m
  | OpCode.MOV =>
      (m.executeMov instr.modifier src dst b_addr wid).appendProc wid next_pc
  | OpCode.ADD =>
      (m.executeAdd instr.modifier src dst b_addr wid).appendProc wid next_pc
  | OpCode.SUB =>
      (m.executeSub instr.modifier src dst b_addr wid).appendProc wid next_pc
  | OpCode.MUL =>
      (m.executeMul instr.modifier src dst b_addr wid).appendProc wid next_pc
  | OpCode.DIV =>
      let r := m.executeDiv instr.modifier src dst b_addr wid
      if r.2 then r.1.appendProc wid next_pc else r.1
  | OpCode.MOD =>
      let r := m.executeMod instr.modifier src dst b_addr wid
      if r.2 then r.1.appendProc wid next_pc else r.1
  | OpCode.JMP => m.appendProc wid a_addr
  | OpCode.JMZ =>
      if isZero instr.modifier dst then m.appendProc wid a_addr
      else m.appendProc wid next_pc
  | OpCode.JMN =>
      if ¬ isZero instr.modifier dst then m.appendProc wid a_addr
      else m.appendProc wid next_pc
  | OpCode.DJN =>
      let new_dst := djnDec m.core_size instr.modifier dst
      let m1 := m.mwrite b_addr new_dst wid
      if ¬ isZero instr.modifier new_dst then m1.appendProc wid a_addr
      else m1.appendProc wid next_pc
  | OpCode.SPL =>
      let cur := ((m.lookupWarrior wid).map (fun w => w.processes)).getD []
      let m1 :=
        if (cur.length : Int) < m.max_processes - 1 then
          (m.appendProc wid a_addr).updateWarrior wid
            (fun w => { w with threads_spawned := w.threads_spawned + 1 })
        else m
      m1.appendProc wid next_pc
  | OpCode.CMP | OpCode.SEQ =>
      if compareEqual instr.modifier src dst then
        m.appendProc wid (m.normalize (next_pc + 1))
      else m.appendProc wid next_pc
  | OpCode.SNE =>
      if ¬ compareEqual instr.modifier src dst then
        m.appendProc wid (m.normalize (next_pc + 1))
      else m.appendProc wid next_pc
  | OpCode.SLT =>
      if compareLessThan instr.modifier src dst then
        m.appendProc wid (m.normalize (next_pc + 1))
      else m.appendProc wid next_pc
  | OpCode.NOP => m.appendProc wid next_pc
  | _ => m.appendProc wid next_pc

/-- Mirrors `MARS._execute_one` for the warrior `wid` (the Python method receives
the aliased `WarriorState` object from `self.warriors`; here every state
update goes through the dict).  The `none` branch cannot arise in the
source (the caller always passes a registered warrior). -/
def MARS.executeOne (m : MARS) (wid : Int) : MARS :=
  match m.lookupWarrior wid with
  | none => m
  | some ws =>
    match ws.processes with
    | [] => m.updateWarrior wid (fun w => { w with is_alive := false })
    | pc :: _ =>
      let m0 := m.updateWarrior wid (fun w =>
        { w with
          processes := w.processes.tail
          instructions_executed := w.instructions_executed + 1
          memory_accessed := insert pc w.memory_accessed })
      let ctx := m0.decodeStep pc wid
      let m3 := ctx.m.execDispatch wid ctx.instr ctx.next_pc ctx.a_addr ctx.b_addr
      m3.updateWarrior wid (fun w => { w with is_alive := ¬ w.processes.isEmpty })

/-- Living warriors in registration order (`self.warriors.values()` filtered
on `is_alive`). -/
def MARS.aliveWarriors (m : MARS) : List WarriorState :=
  (m.warriors.map (fun p => p.2)).filter (fun w => w.is_alive)

/-- The `while True` scan of `MARS.step` that advances
`current_warrior_idx` to the next living warrior.  The source loop
diverges when no living warrior is registered; `step` only calls it with
at least two alive, so the fuel (`warrior_order.length + 1`) is never
exhausted on reachable states. -/
def MARS.findAlive : MARS → Nat → MARS × Int
  | m, 0 => (m, m.warrior_order.getD m.current_warrior_idx 0)
  | m, fuel + 1 =>
      let wid := m.warrior_order.getD m.current_warrior_idx 0
      match m.lookupWarrior wid with
      | some ws =>
          if ws.is_alive then (m, wid)
          else
            MARS.findAlive
              { m with current_warrior_idx :=
                  (m.current_warrior_idx + 1) % m.warrior_order.length } fuel
      | none => (m, wid)

/-- Mirrors `MARS.step`: one executed instruction from one warrior; `false` means
the simulation is over (cycle cap reached or at most one warrior alive). -/
def MARS.step (m : MARS) : MARS × Bool :=
  if m.max_cycles ≤ m.cycle then (m, false)
  else if m.aliveWarriors.length ≤ 1 then (m, false)
  else
    let fm := m.findAlive (m.warrior_order.length + 1)
    let m2 := fm.1.executeOne fm.2
    ({ m2 with
        current_warrior_idx :=
          (m2.current_warrior_idx + 1) % m2.warrior_order.length
        cycle := m2.cycle + 1 }, true)

/-- Iterate `MARS.step` up to `n` times, stopping when `step` reports the
simulation is over (so `steps n` with large `n` is `MARS.run`'s loop). -/
def MARS.steps : MARS → Nat → MARS
  | m, 0 => m
  | m, n + 1 =>
      let r := m.step
      if r.2 then MARS.steps r.1 n else r.1

/-- Winner determination of `MARS.run` (after the loop): the single living
warrior's id, else a draw. -/
def MARS.winner (m : MARS) : Option Int :=
  match m.aliveWarriors with
  | [a] => some a.warrior_id
  | _ => none

/-! ## `battle.py`: starting-position generator -/

/-- Circular distance check of `Battle._generate_positions`
(`min(|pos-other|, core_size - |pos-other|)`). -/
def circularMinDist (M pos other : Int) : Int :=
  min |pos - other| (M - |pos - other|)

/-- Inner `for` loop of `Battle._generate_positions`: a candidate is valid
when no already-placed warrior is closer than
`max(lengths[i], lengths[len(positions)]) + min_distance` (the early
`break` of the source is observationally the same as checking all). -/
def validCandidate (M minDist : Int) (lengths positions : List Int)
    (pos : Int) : Bool :=
  (List.range positions.length).all fun i =>
    let required := max (lengths.getD i 0) (lengths.getD positions.length 0)
                    + minDist
    ¬ (circularMinDist M pos (positions.getD i 0) < required)

/-- The `while` loop of `Battle._generate_positions`; `samples t` models the
value drawn by `random.randint(0, core_size - 1)` on attempt `t`, and the
fuel is the remaining attempts out of `max_attempts = 1000`.  Note the
attempt counter advances on every iteration, accepted or not. -/
def genLoop (M minDist : Int) (n : Nat) (lengths : List Int)
    (samples : Nat → Int) : Nat → Nat → List Int → List Int
  | _, 0, positions => positions
  | attempts, fuel + 1, positions =>
      if positions.length < n then
        let pos := samples attempts
        let positions1 :=
          if validCandidate M minDist lengths positions pos then
            positions ++ [pos]
          else positions
        genLoop M minDist n lengths samples (attempts + 1) fuel positions1
      else positions

/-- Mirrors `Battle._generate_positions`: sample up to 1000 candidates, then fall
back to equal spacing `i * (core_size // num_warriors)` if fewer than
`num_warriors` positions were placed. -/
def generatePositions (M minDist : Int) (n : Nat) (lengths : List Int)
    (samples : Nat → Int) : List Int :=
  let positions := genLoop M minDist n lengths samples 0 1000 []
  if positions.length < n then
    (List.range n).map (fun i => (i : Int) * Int.fdiv M (n : Int))
  else positions

/-! ## `battle.py` / `fitness.py`: fitness evaluation

A single `battle.run([challenger, opponent])` is an external stochastic
event; its outcome is modelled by a `MatchResult` (the aggregate
`winner_id`, with `0` the challenger, and the challenger's averaged
metric dict `result.metrics[0]`). -/

/-- Outcome of one `Battle.run` as seen by the fitness evaluators. -/
structure MatchResult where
  winner : Option Nat
  metrics : List (String × ℚ)
deriving DecidableEq, Repr

/-- Per-match score of `evaluate_fitness` (`battle.py`): 3 for a win of
warrior 0, 1 for a draw, 0 otherwise. -/
def resultScore (r : MatchResult) : ℚ :=
  match r.winner with
  | some 0 => 3
  | none => 1
  | some _ => 0

/-- Mirrors `m.get(key, 0)` on a metric dict. -/
def metricGet (l : List (String × ℚ)) (k : String) : ℚ :=
  ((l.find? (fun p => p.1 = k)).map (fun p => p.2)).getD 0

/-- The metric-averaging epilogue shared by `evaluate_fitness` and
`FitnessEvaluator.evaluate`: keys come from the first collected dict,
values are arithmetic means with missing keys read as 0. -/
def avgMetrics (ms : List (List (String × ℚ))) : List (String × ℚ) :=
  match ms with
  | [] => []
  | m0 :: _ =>
      m0.map (fun p =>
        (p.1, (ms.map (fun mm => metricGet mm p.1)).sum / (ms.length : ℚ)))

/-- Mirrors `evaluate_fitness` (`battle.py` lines 240-297), one `MatchResult` per
opponent: empty opponent list returns `(0, {})`; otherwise the 3/1/0
total is normalized by `3 * |opponents|`. -/
def evaluateFitness (results : List MatchResult) : ℚ × List (String × ℚ) :=
  if results.isEmpty then (0, [])
  else
    let total := (results.map resultScore).sum
    let max_possible := 3 * (results.length : ℚ)
    let fitness := if 0 < max_possible then total / max_possible else 0
    (fitness, avgMetrics (results.map (fun r => r.metrics)))

/-- Scoring weights of `FitnessConfig` (`fitness.py`), defaults 3/1/0. -/
structure FitnessConfig where
  win_score : ℚ := 3
  draw_score : ℚ := 1
  loss_score : ℚ := 0
deriving DecidableEq, Repr

/-- Per-match score of `FitnessEvaluator.evaluate` under a config. -/
def resultScoreCfg (cfg : FitnessConfig) (r : MatchResult) : ℚ :=
  match r.winner with
  | some 0 => cfg.win_score
  | none => cfg.draw_score
  | some _ => cfg.loss_score

/-- Mirrors `FitnessEvaluator.evaluate` (`fitness.py` lines 58-114) with the
battles abstracted to their `MatchResult`s. -/
def evaluatorEvaluate (cfg : FitnessConfig) (results : List MatchResult) :
    ℚ × List (String × ℚ) :=
  if results.isEmpty then (0, [])
  else
    let total := (results.map (resultScoreCfg cfg)).sum
    let max_score := cfg.win_score * (results.length : ℚ)
    let fitness := if 0 < max_score then total / max_score else 0
    (fitness, avgMetrics (results.map (fun r => r.metrics)))

/-! ## `map_elites.py`: behavior descriptor and archive admission -/

/-- Python `int()` on a nonnegative-or-negative rational: truncation
toward zero. -/
def pyint (q : ℚ) : Int :=
  if 0 ≤ q then ⌊q⌋ else ⌈q⌉

/-- One axis of `BehaviorDescriptor.axes`: `(name, min, max, num_bins)`. -/
structure Axis where
  name : String
  min_val : ℚ
  max_val : ℚ
  num_bins : Int
deriving DecidableEq, Repr

/-- Default DRQ axes (`BehaviorDescriptor.__post_init__`). -/
def defaultAxes : List Axis :=
  [⟨"memory_coverage", 0, 1, 10⟩, ⟨"threads_spawned", 0, 100, 10⟩]

/-- Mirrors `BehaviorDescriptor.get_cell_index`: clamp each metric into the axis
range, normalize, truncate `normalized * (num_bins - 1)` and clamp to the
last bin. -/
def getCellIndex (axes : List Axis) (metrics : List (String × ℚ)) :
    List Int :=
  axes.map fun a =>
    let value0 := ((metrics.find? (fun p => p.1 = a.name)).map
        (fun p => p.2)).getD a.min_val
    let value := max a.min_val (min a.max_val value0)
    if a.min_val < a.max_val then
      let normalized := (value - a.min_val) / (a.max_val - a.min_val)
      min (pyint (normalized * ((a.num_bins : ℚ) - 1))) (a.num_bins - 1)
    else 0

/-- Mirrors `EliteCell` of `map_elites.py`. -/
structure EliteCell where
  solution : Warrior
  fitness : ℚ
  metrics : List (String × ℚ)
  generation : Int := 0
deriving DecidableEq, Repr

/-- The `stats` dict of `MAPElites`. -/
structure MEStats where
  total_evaluations : Int := 0
  archive_updates : Int := 0
  best_fitness : ℚ := 0
  archive_size : Int := 0
deriving DecidableEq, Repr

/-- Mirrors `MAPElites` state (descriptor axes, archive dict, generation, stats). -/
structure MAPElites where
  axes : List Axis := defaultAxes
  archive : List (List Int × EliteCell) := []
  generation : Int := 0
  stats : MEStats := {}
deriving DecidableEq, Repr

/-- Mirrors `MAPElites._try_add`: admit into the cell keyed by the descriptor if
the cell is empty or the fitness strictly exceeds the incumbent's. -/
def tryAdd (me : MAPElites) (solution : Warrior) (fitness : ℚ)
    (metrics : List (String × ℚ)) : MAPElites × Bool :=
  let cell_idx := getCellIndex me.axes metrics
  let me1 := { me with stats :=
    { me.stats with total_evaluations := me.stats.total_evaluations + 1 } }
  match dictGet me1.archive cell_idx with
  | none =>
      let cell : EliteCell := { solution := solution, fitness := fitness,
                                metrics := metrics,
                                generation := me1.generation }
      let archive1 := dictSet me1.archive cell_idx cell
      ({ me1 with
          archive := archive1
          stats := { me1.stats with
            archive_updates := me1.stats.archive_updates + 1
            archive_size := (archive1.length : Int)
            best_fitness :=
              if me1.stats.best_fitness < fitness then fitness
              else me1.stats.best_fitness } }, true)
  | some incumbent =>
      if incumbent.fitness < fitness then
        let cell : EliteCell := { solution := solution, fitness := fitness,
                                  metrics := metrics,
                                  generation := me1.generation }
        ({ me1 with
            archive := dictSet me1.archive cell_idx cell
            stats := { me1.stats with
              archive_updates := me1.stats.archive_updates + 1
              best_fitness :=
                if me1.stats.best_fitness < fitness then fitness
                else me1.stats.best_fitness } }, true)
      else (me1, false)

/-! ## `llm_interface/base.py`: warrior generation with fallback

`llm.generate` + `_extract_code` + `parse_warrior` form an external
pipeline: its outcome is a `Except Unit Warrior` (exceptions from the
provider on the left).  The random fallback warriors
(`_generate_fallback` / `_mutate_fallback`) are likewise oracle
parameters. -/

/-- Mirrors `GenerationConfig` (`base.py`), default `max_warrior_length = 50`. -/
structure GenerationConfig where
  max_warrior_length : Nat := 50
deriving DecidableEq, Repr

/-- Counters of `WarriorGenerator`. -/
structure GenStats where
  generations : Nat := 0
  mutations : Nat := 0
  parse_failures : Nat := 0
deriving DecidableEq, Repr

/-- Mirrors `WarriorGenerator.generate_random` (`base.py` lines 205-267): bump the
generation counter; on an LLM exception or an empty parsed warrior, bump
`parse_failures` and return the fallback; otherwise return the parsed
warrior unchanged (no further validation is applied). -/
def generateRandom (st : GenStats) (llmResult : Except Unit Warrior)
    (fallbackW : Warrior) : GenStats × Warrior :=
  let st1 := { st with generations := st.generations + 1 }
  match llmResult with
  | Except.error _ =>
      ({ st1 with parse_failures := st1.parse_failures + 1 }, fallbackW)
  | Except.ok w =>
      if w.instructions.isEmpty then
        ({ st1 with parse_failures := st1.parse_failures + 1 }, fallbackW)
      else (st1, w)

/-- Mirrors `WarriorGenerator.mutate` (`base.py` lines 269-343): same validation
shape as `generate_random`, with the mutation counter and the
`_mutate_fallback` oracle. -/
def mutateOp (st : GenStats) (llmResult : Except Unit Warrior)
    (fallbackW : Warrior) : GenStats × Warrior :=
  let st1 := { st with mutations := st.mutations + 1 }
  match llmResult with
  | Except.error _ =>
      ({ st1 with parse_failures := st1.parse_failures + 1 }, fallbackW)
  | Except.ok w =>
      if w.instructions.isEmpty then
        ({ st1 with parse_failures := st1.parse_failures + 1 }, fallbackW)
      else (st1, w)

/-! ## Derived predicates and concrete scenario machines used by the
claim theorems -/

/-- The zero test `_execute_div` / `_execute_mod` apply to the source
snapshot under the instruction's modifier (the guards preceding each
division in the source). -/
def selectedDivisorZero (modifier : Modifier) (src : Instruction) : Bool :=
  match modifier with
  | Modifier.A | Modifier.AB => src.a_value = 0
  | Modifier.B | Modifier.BA => src.b_value = 0
  | _ => src.a_value = 0 ∨ src.b_value = 0

/-- Addressing modes whose resolution performs no write. -/
def sideEffectFree : AddressMode → Bool
  | AddressMode.A_PREDEC | AddressMode.B_PREDEC
  | AddressMode.A_POSTINC | AddressMode.B_POSTINC => false
  | _ => true

/-- The pending write of a DIV or MOD instruction (`divResult` /
`modResult` selected by opcode). -/
def divLike (op : OpCode) (modifier : Modifier) (src dst : Instruction) :
    Option Instruction :=
  match op with
  | OpCode.DIV => divResult modifier src dst
  | OpCode.MOD => modResult modifier src dst
  | _ => none

/-- Both fields of an instruction lie in `[0, M)`. -/
def fieldsInRange (M : Int) (i : Instruction) : Prop :=
  0 ≤ i.a_value ∧ i.a_value < M ∧ 0 ≤ i.b_value ∧ i.b_value < M

/-- Every ordered pair of generated positions respects the spacing
requirement of `Battle._generate_positions`. -/
def pairwiseSpaced (M minDist : Int) (lengths positions : List Int) : Prop :=
  ∀ j i : Nat, j < i → i < positions.length →
    max (lengths.getD j 0) (lengths.getD i 0) + minDist ≤
      circularMinDist M (positions.getD i 0) (positions.getD j 0)

/-- Process queue and spawn counter of a warrior, the data the SPL and
DIV/MOD claims are about. -/
def MARS.procView (m : MARS) (wid : Int) : Option (List Int × Int) :=
  (m.lookupWarrior wid).map (fun w => (w.processes, w.threads_spawned))

/-- The deque-pop-and-count prefix of `_execute_one` (lines 218-223). -/
def MARS.popStep (m : MARS) (wid pc : Int) : MARS :=
  m.updateWarrior wid (fun w =>
    { w with
      processes := w.processes.tail
      instructions_executed := w.instructions_executed + 1
      memory_accessed := insert pc w.memory_accessed })

/-- Scenario machine for the SPL ordering claim: `SPL $5, $0` at cell 0 of
an 8-cell core, one process at 0. -/
def splM : MARS :=
  ((mkMARS 8 64 8000 100 100).loadWarrior
    { name := "splitter", instructions :=
        [{ opcode := OpCode.SPL, modifier := Modifier.B, a_value := 5 }] }
    0 0).1

/-- Scenario machine for the DIV-by-zero claim: `DIV.AB #0, <1` at cell 0,
cell 1 = `DAT.F $0, $1`.  The B-operand pre-decrement turns cell 1's
B-field into 0, so the resolved destination pointer is cell 1 itself. -/
def divZeroM : MARS :=
  ((mkMARS 8 64 8000 100 100).loadWarrior
    { name := "divz", instructions :=
        [{ opcode := OpCode.DIV, modifier := Modifier.AB,
           a_mode := AddressMode.IMMEDIATE, a_value := 0,
           b_mode := AddressMode.B_PREDEC, b_value := 1 },
         { opcode := OpCode.DAT, modifier := Modifier.F,
           a_value := 0, b_value := 1 }] }
    0 0).1

/-- Scenario machine for the Imp end-to-end claim: `MOV.I $0, $1` loaded at
position 0 of an 8-cell core with `max_cycles = 64`. -/
def impM : MARS :=
  ((mkMARS 8 64 8000 100 100).loadWarrior
    { name := "Imp", instructions :=
        [{ opcode := OpCode.MOV, modifier := Modifier.I,
           a_value := 0, b_value := 1 }] }
    0 0).1

/-- Scenario machine for the arithmetic-range claim: `DIV.A $1, $2` at
cell 0, divisor cell 1 with A-field 2, destination cell 2 with A-field
`-2` (negative stored fields arise from warriors such as the bundled
Dwarf, whose `JMP -2` parses to an operand value of `-2`). -/
def divNegM : MARS :=
  ((mkMARS 8 64 8000 100 100).loadWarrior
    { name := "divneg", instructions :=
        [{ opcode := OpCode.DIV, modifier := Modifier.A,
           a_value := 1, b_value := 2 },
         { opcode := OpCode.DAT, modifier := Modifier.F,
           a_value := 2, b_value := 0 },
         { opcode := OpCode.DAT, modifier := Modifier.F,
           a_value := -2, b_value := 0 }] }
    0 0).1

/-- Scenario machine for the post-increment claim: `MOV.I }1, $2` at
cell 0, cell 1 = `DAT.F #0, #0`. -/
def postIncM : MARS :=
  ((mkMARS 8 64 8000 100 100).loadWarrior
    { name := "post", instructions :=
        [{ opcode := OpCode.MOV, modifier := Modifier.I,
           a_mode := AddressMode.A_POSTINC, a_value := 1,
           b_mode := AddressMode.DIRECT, b_value := 2 },
         { opcode := OpCode.DAT, modifier := Modifier.F,
           a_mode := AddressMode.IMMEDIATE, a_value := 0,
           b_mode := AddressMode.IMMEDIATE, b_value := 0 }] }
    0 0).1

/-- Sample stream for the position-generator claim: first candidate 0,
then 15. -/
def cexSamples : Nat → Int := fun k => if k = 0 then 0 else 15

/-- A 51-instruction warrior, one over the default
`max_warrior_length = 50` of `GenerationConfig`. -/
def bigW : Warrior := { instructions := List.replicate 51 {} }

/-- A nominal fallback warrior for the generator claims. -/
def fbW : Warrior := { name := "fallback", instructions := [{}] }

/-! ## Helper lemmas -/

theorem fmod_bounds (a : Int) {M : Int} (hM : 0 < M) :
    0 ≤ Int.fmod a M ∧ Int.fmod a M < M := by
  rw [Int.fmod_eq_emod _ hM.le]
  exact ⟨Int.emod_nonneg _ hM.ne', Int.emod_lt_of_pos _ hM⟩

theorem fdiv_bounds {a b M : Int} (h0 : 0 ≤ a) (h1 : a < M) (hb : 0 < b) :
    0 ≤ Int.fdiv a b ∧ Int.fdiv a b < M := by
  rw [Int.fdiv_eq_ediv _ hb.le]
  exact ⟨Int.ediv_nonneg h0 hb.le, lt_of_le_of_lt (Int.ediv_le_self b h0) h1⟩

theorem fmod_pos_bounds (a : Int) {b M : Int} (hb : 0 < b) (hbM : b ≤ M) :
    0 ≤ Int.fmod a b ∧ Int.fmod a b < M :=
  ⟨(fmod_bounds a hb).1, lt_of_lt_of_le (fmod_bounds a hb).2 hbM⟩

theorem dictGet_nil {κ α : Type} [DecidableEq κ] (k : κ) :
    dictGet ([] : List (κ × α)) k = none := rfl

theorem dictGet_cons {κ α : Type} [DecidableEq κ] (p : κ × α)
    (l : List (κ × α)) (k : κ) :
    dictGet (p :: l) k = if p.1 = k then some p.2 else dictGet l k := by
  by_cases h : p.1 = k
  · simp [dictGet, List.find?_cons_of_pos, h]
  · simp [dictGet, List.find?_cons_of_neg, h]

theorem dictGet_dictSet_self {κ α : Type} [DecidableEq κ]
    (l : List (κ × α)) (k : κ) (v : α) :
    dictGet (dictSet l k v) k = some v := by
  induction l with
  | nil => simp [dictSet, dictGet]
  | cons p t ih =>
    by_cases h : p.1 = k
    · have hfind : ((p :: t).find? (fun q => q.1 = k)) = some p :=
        List.find?_cons_of_pos _ (by simp [h])
      simp [dictSet, hfind, dictGet_cons, h]
    · have hfind : ((p :: t).find? (fun q => q.1 = k)) =
          t.find? (fun q => q.1 = k) := List.find?_cons_of_neg _ (by simp [h])
      by_cases hc : (t.find? (fun q => q.1 = k)).isSome
      · simp only [dictSet, hfind, hc] at ih ⊢
        simp only [if_true, List.map_cons, if_neg h] at ih ⊢
        rw [dictGet_cons]
        simpa [h] using ih
      · have hc' : (t.find? (fun q => q.1 = k)).isSome = false := by
          simp only [Bool.not_eq_true] at hc
          exact hc
        simp only [dictSet, hfind, hc', Bool.false_eq_true, if_false,
          List.cons_append] at ih ⊢
        rw [dictGet_cons]
        simpa [h] using ih

theorem dictGet_dictModify_self {κ α : Type} [DecidableEq κ]
    (l : List (κ × α)) (k : κ) (f : α → α) :
    dictGet (dictModify l k f) k = (dictGet l k).map f := by
  induction l with
  | nil => rfl
  | cons p t ih =>
    by_cases h : p.1 = k
    · simp only [dictModify, List.map_cons, if_pos h]
      rw [dictGet_cons, dictGet_cons]
      simp [h]
    · simp only [dictModify, List.map_cons, if_neg h]
      rw [dictGet_cons, dictGet_cons]
      simpa [h] using ih

theorem dictGet_dictModify_ne {κ α : Type} [DecidableEq κ]
    (l : List (κ × α)) {k k' : κ} (h : k ≠ k') (f : α → α) :
    dictGet (dictModify l k f) k' = dictGet l k' := by
  induction l with
  | nil => rfl
  | cons p t ih =>
    by_cases hp : p.1 = k
    · simp only [dictModify, List.map_cons, if_pos hp]
      rw [dictGet_cons, dictGet_cons]
      simp only [hp]
      rw [if_neg h, if_neg (hp ▸ h)]
      simpa [dictModify] using ih
    · simp only [dictModify, List.map_cons, if_neg hp]
      rw [dictGet_cons, dictGet_cons]
      by_cases hk : p.1 = k'
      · simp [hk]
      · simpa [hk, dictModify] using ih

section Preservation

variable (m : MARS)

@[simp] theorem updateWarrior_core (wid : Int) (f : WarriorState → WarriorState) :
    (m.updateWarrior wid f).core = m.core := rfl

@[simp] theorem updateWarrior_core_size (wid : Int)
    (f : WarriorState → WarriorState) :
    (m.updateWarrior wid f).core_size = m.core_size := rfl

@[simp] theorem updateWarrior_max_processes (wid : Int)
    (f : WarriorState → WarriorState) :
    (m.updateWarrior wid f).max_processes = m.max_processes := rfl

@[simp] theorem updateWarrior_mread (wid : Int) (f : WarriorState → WarriorState)
    (a : Int) : (m.updateWarrior wid f).mread a = m.mread a := rfl

@[simp] theorem updateWarrior_normalize (wid : Int)
    (f : WarriorState → WarriorState) (a : Int) :
    (m.updateWarrior wid f).normalize a = m.normalize a := rfl

theorem lookup_updateWarrior_self (wid : Int) (f : WarriorState → WarriorState) :
    (m.updateWarrior wid f).lookupWarrior wid =
      (m.lookupWarrior wid).map f := by
  simp [MARS.updateWarrior, MARS.lookupWarrior, dictGet_dictModify_self]

theorem procView_updateWarrior (wid : Int) (f : WarriorState → WarriorState)
    (hp : ∀ w, (f w).processes = w.processes)
    (ht : ∀ w, (f w).threads_spawned = w.threads_spawned) :
    (m.updateWarrior wid f).procView wid = m.procView wid := by
  simp only [MARS.procView, lookup_updateWarrior_self, Option.map_map]
  cases m.lookupWarrior wid with
  | none => rfl
  | some w => simp [Function.comp, hp, ht]

@[simp] theorem mwrite_core_size (a : Int) (i : Instruction) (wid : Int) :
    (m.mwrite a i wid).core_size = m.core_size := by
  unfold MARS.mwrite
  split <;> rfl

@[simp] theorem mwrite_max_processes (a : Int) (i : Instruction) (wid : Int) :
    (m.mwrite a i wid).max_processes = m.max_processes := by
  unfold MARS.mwrite
  split <;> rfl

theorem procView_mwrite (a : Int) (i : Instruction) (wid wid' : Int) :
    (m.mwrite a i wid').procView wid = m.procView wid := by
  unfold MARS.mwrite
  split
  · rw [show ∀ mm : MARS, (MARS.updateWarrior mm wid' _).procView wid =
        mm.procView wid from ?_]
    · rfl
    · intro mm
      by_cases h : wid' = wid
      · subst h
        exact procView_updateWarrior mm wid' _ (fun w => rfl) (fun w => rfl)
      · simp [MARS.procView, MARS.updateWarrior, MARS.lookupWarrior,
          dictGet_dictModify_ne _ h]
  · rfl

theorem procView_resolve (pc : Int) (mode : AddressMode) (v wid wid' : Int) :
    (m.resolveAddress pc mode v wid').1.procView wid = m.procView wid := by
  unfold MARS.resolveAddress
  cases mode <;> simp [procView_mwrite]

@[simp] theorem resolve_core_size (pc : Int) (mode : AddressMode)
    (v wid : Int) :
    (m.resolveAddress pc mode v wid).1.core_size = m.core_size := by
  unfold MARS.resolveAddress
  cases mode <;> simp

@[simp] theorem resolve_max_processes (pc : Int) (mode : AddressMode)
    (v wid : Int) :
    (m.resolveAddress pc mode v wid).1.max_processes = m.max_processes := by
  unfold MARS.resolveAddress
  cases mode <;> simp

theorem procView_decodeStep (pc wid wid' : Int) :
    (m.decodeStep pc wid').m.procView wid = m.procView wid := by
  unfold MARS.decodeStep
  simp [procView_resolve]

@[simp] theorem decodeStep_max_processes (pc wid : Int) :
    (m.decodeStep pc wid).m.max_processes = m.max_processes := by
  unfold MARS.decodeStep
  simp

@[simp] theorem decodeStep_instr (pc wid : Int) :
    (m.decodeStep pc wid).instr = m.mread pc := rfl

@[simp] theorem decodeStep_next_pc (pc wid : Int) :
    (m.decodeStep pc wid).next_pc = m.normalize (pc + 1) := rfl

theorem procView_appendProc (wid p : Int) :
    (m.appendProc wid p).procView wid =
      (m.procView wid).map (fun pt => (pt.1 ++ [p], pt.2)) := by
  simp only [MARS.appendProc, MARS.procView, lookup_updateWarrior_self,
    Option.map_map]
  cases m.lookupWarrior wid with
  | none => rfl
  | some w => rfl

theorem procView_popStep (wid pc : Int) :
    (m.popStep wid pc).procView wid =
      (m.procView wid).map (fun pt => (pt.1.tail, pt.2)) := by
  simp only [MARS.popStep, MARS.procView, lookup_updateWarrior_self,
    Option.map_map]
  cases m.lookupWarrior wid with
  | none => rfl
  | some w => rfl

end Preservation

/-- Unfolding of `_execute_one` on a warrior whose queue starts with `pc`:
pop, fetch-resolve, dispatch, liveness refresh. -/
theorem executeOne_eq (m : MARS) (wid : Int) (ws : WarriorState) (pc : Int)
    (rest : List Int) (hw : m.lookupWarrior wid = some ws)
    (hp : ws.processes = pc :: rest) :
    m.executeOne wid =
      (let m0 := m.popStep wid pc
       let ctx := m0.decodeStep pc wid
       (ctx.m.execDispatch wid ctx.instr ctx.next_pc ctx.a_addr
          ctx.b_addr).updateWarrior wid
         (fun w => { w with is_alive := ¬ w.processes.isEmpty })) := by
  unfold MARS.executeOne MARS.popStep
  rw [hw]
  dsimp only
  rw [hp]

@[simp] theorem popStep_mread (m : MARS) (wid pc a : Int) :
    (m.popStep wid pc).mread a = m.mread a := rfl

@[simp] theorem popStep_max_processes (m : MARS) (wid pc : Int) :
    (m.popStep wid pc).max_processes = m.max_processes := rfl

@[simp] theorem popStep_core_size (m : MARS) (wid pc : Int) :
    (m.popStep wid pc).core_size = m.core_size := rfl

theorem procView_bumpThreads (m : MARS) (wid : Int) :
    (m.updateWarrior wid (fun w =>
        { w with threads_spawned := w.threads_spawned + 1 })).procView wid =
      (m.procView wid).map (fun pt => (pt.1, pt.2 + 1)) := by
  simp only [MARS.procView, lookup_updateWarrior_self, Option.map_map]
  cases m.lookupWarrior wid with
  | none => rfl
  | some w => rfl

theorem procView_refreshAlive (m : MARS) (wid : Int) :
    (m.updateWarrior wid (fun w =>
        { w with is_alive := ¬ w.processes.isEmpty })).procView wid =
      m.procView wid :=
  procView_updateWarrior m wid _ (fun _ => rfl) (fun _ => rfl)

/-- Behaviour of the SPL branch of the dispatch: the split target is
appended first (when the popped queue is shorter than
`max_processes - 1`, with the spawn counter bumped), then `next_pc`. -/
theorem execDispatch_spl (m : MARS) (wid : Int) (instr : Instruction)
    (next_pc a_addr b_addr : Int) (hop : instr.opcode = OpCode.SPL) :
    (m.execDispatch wid instr next_pc a_addr b_addr).procView wid =
      (m.procView wid).map (fun pt =>
        if (pt.1.length : Int) < m.max_processes - 1 then
          (pt.1 ++ [a_addr, next_pc], pt.2 + 1)
        else (pt.1 ++ [next_pc], pt.2)) := by
  unfold MARS.execDispatch
  rw [hop]
  dsimp only
  cases h : m.lookupWarrior wid with
  | none =>
    have hv : m.procView wid = none := by simp [MARS.procView, h]
    split
    · rw [procView_appendProc, procView_bumpThreads, procView_appendProc, hv]
      rfl
    · rw [procView_appendProc, hv]
      rfl
  | some w =>
    have hv : m.procView wid = some (w.processes, w.threads_spawned) := by
      simp [MARS.procView, h]
    simp only [Option.map_some', Option.getD_some]
    split
    · rename_i hlt
      rw [procView_appendProc, procView_bumpThreads, procView_appendProc, hv]
      simp only [Option.map_some', if_pos hlt, List.append_assoc,
        List.singleton_append]
    · rename_i hge
      rw [procView_appendProc, hv]
      simp only [Option.map_some', if_neg hge]

/-- C1 (amended), general form: executing SPL pops `pc`, then appends the
split target `a_ptr` first (only when the popped queue length is below
`max_processes - 1`, bumping `threads_spawned`), and appends `next_pc`
last. -/
theorem spl_split_semantics (m : MARS) (wid : Int) (ws : WarriorState)
    (pc : Int) (rest : List Int)
    (hw : m.lookupWarrior wid = some ws) (hp : ws.processes = pc :: rest)
    (hop : (m.mread pc).opcode = OpCode.SPL) :
    (m.executeOne wid).procView wid =
      (let ctx := (m.popStep wid pc).decodeStep pc wid
       if (rest.length : Int) < m.max_processes - 1 then
         some (rest ++ [ctx.a_addr, ctx.next_pc], ws.threads_spawned + 1)
       else some (rest ++ [ctx.next_pc], ws.threads_spawned)) := by
  rw [executeOne_eq m wid ws pc rest hw hp]
  dsimp only
  rw [procView_refreshAlive]
  rw [execDispatch_spl _ _ _ _ _ _ (by simpa using hop)]
  rw [procView_decodeStep, procView_popStep]
  have hv : m.procView wid = some (ws.processes, ws.threads_spawned) := by
    simp [MARS.procView, hw]
  rw [hv, hp]
  simp only [Option.map_some', List.tail_cons, decodeStep_max_processes,
    popStep_max_processes]
  split <;> rfl

theorem divResult_eq_none_iff (modifier : Modifier) (src dst : Instruction) :
    divResult modifier src dst = none ↔
      selectedDivisorZero modifier src = true := by
  cases modifier <;> simp [divResult, selectedDivisorZero] <;> tauto

theorem modResult_eq_none_iff (modifier : Modifier) (src dst : Instruction) :
    modResult modifier src dst = none ↔
      selectedDivisorZero modifier src = true := by
  cases modifier <;> simp [modResult, selectedDivisorZero] <;> tauto

theorem divLike_eq_none_iff (op : OpCode) (modifier : Modifier)
    (src dst : Instruction) (hop : op = OpCode.DIV ∨ op = OpCode.MOD) :
    divLike op modifier src dst = none ↔
      selectedDivisorZero modifier src = true := by
  rcases hop with h | h <;> subst h <;>
    simp [divLike, divResult_eq_none_iff, modResult_eq_none_iff]

@[simp] theorem appendProc_core (m : MARS) (wid p : Int) :
    (m.appendProc wid p).core = m.core := rfl

theorem resolve_sideEffectFree (m : MARS) (pc v wid : Int)
    {mode : AddressMode} (h : sideEffectFree mode = true) :
    (m.resolveAddress pc mode v wid).1 = m := by
  cases mode <;> first | rfl | simp [sideEffectFree] at h

theorem decodeStep_m_of_sideEffectFree (m : MARS) (pc wid : Int)
    (ha : sideEffectFree (m.mread pc).a_mode = true)
    (hb : sideEffectFree (m.mread pc).b_mode = true) :
    (m.decodeStep pc wid).m = m := by
  unfold MARS.decodeStep
  dsimp only
  rw [resolve_sideEffectFree m pc (m.mread pc).a_value wid ha]
  exact resolve_sideEffectFree m pc (m.mread pc).b_value wid hb

/-- Behaviour of the DIV/MOD branch of the dispatch: on a zero selected
divisor the machine is returned untouched (process killed, no write); on
a nonzero divisor the result is written at `b_addr` and `next_pc` is
appended. -/
theorem execDispatch_divmod (m : MARS) (wid : Int) (instr : Instruction)
    (next_pc a_addr b_addr : Int)
    (hop : instr.opcode = OpCode.DIV ∨ instr.opcode = OpCode.MOD) :
    (selectedDivisorZero instr.modifier (m.mread a_addr) = true →
       m.execDispatch wid instr next_pc a_addr b_addr = m) ∧
    (selectedDivisorZero instr.modifier (m.mread a_addr) = false →
       ∃ nd, divLike instr.opcode instr.modifier
               (m.mread a_addr) (m.mread b_addr) = some nd ∧
         m.execDispatch wid instr next_pc a_addr b_addr =
           (m.mwrite b_addr nd wid).appendProc wid next_pc) := by
  constructor
  · intro hz
    have hn : divLike instr.opcode instr.modifier
        (m.mread a_addr) (m.mread b_addr) = none :=
      (divLike_eq_none_iff _ _ _ _ hop).mpr hz
    rcases hop with h | h <;>
    · unfold MARS.execDispatch
      rw [h]
      dsimp only
      simp only [divLike, h] at hn
      simp [MARS.executeDiv, MARS.executeMod, hn]
  · intro hz
    have hn : ¬ divLike instr.opcode instr.modifier
        (m.mread a_addr) (m.mread b_addr) = none := by
      rw [divLike_eq_none_iff _ _ _ _ hop, hz]
      simp
    rcases hd : divLike instr.opcode instr.modifier
        (m.mread a_addr) (m.mread b_addr) with _ | nd
    · exact absurd hd hn
    · refine ⟨nd, rfl, ?_⟩
      rcases hop with h | h <;>
      · unfold MARS.execDispatch
        rw [h]
        dsimp only
        simp only [divLike, h] at hd
        simp [MARS.executeDiv, MARS.executeMod, hd]

/-- C2 (amended), general form: a DIV or MOD whose selected divisor
field(s) are zero kills the process (nothing re-enqueued) and performs no
write beyond the operand-resolution side effects — in particular the core
is exactly the post-resolution core, and it is fully unchanged when both
addressing modes are side-effect-free; with a nonzero divisor the
quotient/remainder is written at the destination pointer and `next_pc`
is enqueued. -/
theorem div_mod_zero_kills (m : MARS) (wid : Int) (ws : WarriorState)
    (pc : Int) (rest : List Int)
    (hw : m.lookupWarrior wid = some ws) (hp : ws.processes = pc :: rest)
    (hop : (m.mread pc).opcode = OpCode.DIV ∨
           (m.mread pc).opcode = OpCode.MOD) :
    (let ctx := (m.popStep wid pc).decodeStep pc wid
     (selectedDivisorZero (m.mread pc).modifier (ctx.m.mread ctx.a_addr) =
        true →
       (m.executeOne wid).procView wid = some (rest, ws.threads_spawned) ∧
       (m.executeOne wid).core = ctx.m.core ∧
       (sideEffectFree (m.mread pc).a_mode = true →
        sideEffectFree (m.mread pc).b_mode = true →
        (m.executeOne wid).core = m.core)) ∧
     (selectedDivisorZero (m.mread pc).modifier (ctx.m.mread ctx.a_addr) =
        false →
       (m.executeOne wid).procView wid =
         some (rest ++ [ctx.next_pc], ws.threads_spawned) ∧
       ∃ nd, divLike (m.mread pc).opcode (m.mread pc).modifier
               (ctx.m.mread ctx.a_addr) (ctx.m.mread ctx.b_addr) = some nd ∧
         (m.executeOne wid).core = (ctx.m.mwrite ctx.b_addr nd wid).core)) := by
  intro ctx
  have hinstr : ctx.instr = m.mread pc := rfl
  have hv : m.procView wid = some (ws.processes, ws.threads_spawned) := by
    simp [MARS.procView, hw]
  have hd := execDispatch_divmod ctx.m wid ctx.instr ctx.next_pc ctx.a_addr
    ctx.b_addr (by rw [hinstr]; exact hop)
  rw [executeOne_eq m wid ws pc rest hw hp]
  dsimp only
  constructor
  · intro hz
    have h1 := hd.1 (by rw [hinstr]; exact hz)
    rw [h1]
    refine ⟨?_, rfl, ?_⟩
    · rw [procView_refreshAlive, procView_decodeStep, procView_popStep, hv,
        hp]
      simp
    · intro ha hb
      have hfix : ctx.m = m.popStep wid pc :=
        decodeStep_m_of_sideEffectFree (m.popStep wid pc) pc wid ha hb
      simp only [updateWarrior_core]
      rw [hfix]
      rfl
  · intro hz
    obtain ⟨nd, hnd, h2⟩ := hd.2 (by rw [hinstr]; exact hz)
    rw [h2]
    refine ⟨?_, ⟨nd, by rw [hinstr] at hnd; exact hnd, rfl⟩⟩
    rw [procView_refreshAlive, procView_appendProc, procView_mwrite,
      procView_decodeStep, procView_popStep, hv, hp]
    simp

/-- C1 counterexample: on `splM` (SPL $5, $0 at pc 0, popped queue empty,
well under the process cap) the queue after execution is
`[a_ptr, next_pc] = [5, 1]` — the split target is enqueued BEFORE
`next_pc`, not after it as the claim states — with `threads_spawned`
bumped to 1. -/
theorem spl_order_cex :
    (splM.executeOne 0).procView 0 = some ([5, 1], 1) ∧
    ((splM.popStep 0 0).decodeStep 0 0).a_addr = 5 ∧
    ((splM.popStep 0 0).decodeStep 0 0).next_pc = 1 ∧
    (splM.executeOne 0).procView 0 ≠ some ([1, 5], 1) := by
  refine ⟨by decide, by decide, by decide, by decide⟩

/-- Witness for the amended SPL claim at the concrete machine `splM`. -/
theorem spl_split_semantics_witness :
    (splM.executeOne 0).procView 0 = some ([5, 1], 1) := by
  have h := spl_split_semantics splM 0
    { warrior_id := 0, name := "splitter", processes := [0] } 0 []
    (by decide) rfl (by decide)
  rw [h]
  decide

/-- C2 counterexample: `DIV.AB #0, <1` with cell 1 = `DAT.F $0, $1`.  The
selected divisor (the source A-field, an immediate 0) is zero and the
process dies without re-enqueue, but the destination cell — the resolved
pointer `b_ptr = 1` — HAS changed: the pre-decrement of the B-operand
resolution rewrote cell 1's B-field from 1 to 0 before the zero test. -/
theorem div_zero_dest_changed_cex :
    (divZeroM.executeOne 0).procView 0 = some ([], 0) ∧
    ((divZeroM.popStep 0 0).decodeStep 0 0).b_addr = 1 ∧
    selectedDivisorZero (divZeroM.mread 0).modifier
      (((divZeroM.popStep 0 0).decodeStep 0 0).m.mread
        ((divZeroM.popStep 0 0).decodeStep 0 0).a_addr) = true ∧
    (divZeroM.executeOne 0).mread 1 ≠ divZeroM.mread 1 := by
  refine ⟨by decide, by decide, by decide, by decide⟩

/-- Witness for the amended DIV/MOD claim at the concrete machine
`divZeroM` (zero-divisor branch). -/
theorem div_mod_zero_kills_witness :
    (divZeroM.executeOne 0).procView 0 = some ([], 0) := by
  have h := div_mod_zero_kills divZeroM 0
    { warrior_id := 0, name := "divz", processes := [0] } 0 []
    (by decide) rfl (Or.inl (by decide))
  exact (h.1 (by decide)).1

/-- C3 counterexample: loading the lone Imp `MOV.I $0, $1` at position 0
into an 8-cell MARS (`max_cycles = 64`) and running the battle loop does
nothing at all: `step` immediately reports termination because at most
one warrior is alive, so after 10 step iterations the cycle counter is
still 0, address 1 is still unowned and `memory_writes = 0` — the claimed
full-core ownership and `memory_writes ≥ 8` never happen through
`step`/`run`. -/
theorem imp_run_cex :
    impM.step.2 = false ∧
    (impM.steps 10).cycle = 0 ∧
    (impM.steps 10).ownerAt 1 = -1 ∧
    ((impM.steps 10).lookupWarrior 0).map (fun w => w.memory_writes) =
      some 0 := by
  refine ⟨by decide, by decide, by decide, by decide⟩

/-- C3 (amended): the Imp behaviour the claim describes does hold for the
execution core itself: driving `_execute_one` directly for 8 instruction
cycles (bypassing `step`'s two-living-warriors requirement) leaves every
one of the 8 addresses owned by warrior 0 and `memory_writes = 8 ≥ 8`. -/
theorem imp_direct_execution :
    ((fun mm : MARS => mm.executeOne 0)^[8] impM).ownership =
      List.replicate 8 0 ∧
    (((fun mm : MARS => mm.executeOne 0)^[8] impM).lookupWarrior 0).map
      (fun w => w.memory_writes) = some 8 := by
  refine ⟨by decide, by decide⟩

/-- C5 counterexample: `MOV.I }1, $2` with cell 1 = `DAT.F #0, #0`.  `}` is
the A-post-increment mode, so after one cycle cell 1's A-field (not its
B-field) is 1, cell 1's B-field is 0 (the claim says 1), and cell 2's
A-field is 1 (the claim says 0) because the source is read AFTER the
post-increment write. -/
theorem postinc_cex :
    ((postIncM.executeOne 0).mread 1).b_value ≠ 1 ∧
    ((postIncM.executeOne 0).mread 2).a_value ≠ 0 := by
  refine ⟨by decide, by decide⟩

/-- C5 (amended): after one cycle of `MOV.I }1, $2` over cell 1 =
`DAT.F #0, #0`, cell 1 is `DAT.F #1, #0` (A-field incremented to 1,
B-field untouched) and cell 2 is a copy of the incremented cell, so its
A-field is 1 and its B-field 0. -/
theorem postinc_semantics :
    ((postIncM.executeOne 0).mread 1).a_value = 1 ∧
    ((postIncM.executeOne 0).mread 1).b_value = 0 ∧
    ((postIncM.executeOne 0).mread 2).a_value = 1 ∧
    ((postIncM.executeOne 0).mread 2).b_value = 0 := by
  refine ⟨by decide, by decide, by decide, by decide⟩

theorem fdiv_in_range {x y M : Int} (hx0 : 0 ≤ x) (hx1 : x < M)
    (hy0 : 0 ≤ y) (hyne : y ≠ 0) :
    0 ≤ Int.fdiv x y ∧ Int.fdiv x y < M :=
  fdiv_bounds hx0 hx1 (lt_of_le_of_ne hy0 (Ne.symm hyne))

theorem fmod_in_range (x : Int) {y M : Int} (hy0 : 0 ≤ y) (hy1 : y < M)
    (hyne : y ≠ 0) :
    0 ≤ Int.fmod x y ∧ Int.fmod x y < M :=
  fmod_pos_bounds x (lt_of_le_of_ne hy0 (Ne.symm hyne)) hy1.le

/-- C4 counterexample: on `divNegM` the executed instruction at pc 0 is
`DIV.A $1, $2` with divisor field 2 and destination A-field `-2`; the
quotient `-2 // 2 = -1` is written back unreduced, so the destination
cell's A-field afterwards is `-1`, outside `[0, 8]` — arithmetic results
of DIV are NOT reduced modulo the core size. -/
theorem div_negative_write_cex :
    (divNegM.mread 0).opcode = OpCode.DIV ∧
    ((divNegM.executeOne 0).mread 2).a_value = -1 ∧
    ¬ (0 ≤ ((divNegM.executeOne 0).mread 2).a_value ∧
       ((divNegM.executeOne 0).mread 2).a_value < divNegM.core_size) := by
  refine ⟨by decide, by decide, by decide⟩

/-- C4 (amended): ADD, SUB and MUL always write field values reduced into
`[0, M)`, and DIV/MOD results also lie in `[0, M)` PROVIDED the source
and destination snapshot fields already lie in `[0, M)` (DIV/MOD perform
no modular reduction, so negative stored fields can escape the range). -/
theorem arith_fields_in_range (M : Int) (modifier : Modifier)
    (src dst : Instruction) (hM : 0 < M)
    (hs : fieldsInRange M src) (hd : fieldsInRange M dst) :
    fieldsInRange M (addResult M modifier src dst) ∧
    fieldsInRange M (subResult M modifier src dst) ∧
    fieldsInRange M (mulResult M modifier src dst) ∧
    (∀ nd, divResult modifier src dst = some nd → fieldsInRange M nd) ∧
    (∀ nd, modResult modifier src dst = some nd → fieldsInRange M nd) := by
  obtain ⟨hsa0, hsa1, hsb0, hsb1⟩ := hs
  obtain ⟨hda0, hda1, hdb0, hdb1⟩ := hd
  have hfm : ∀ a : Int, 0 ≤ Int.fmod a M ∧ Int.fmod a M < M :=
    fun a => fmod_bounds a hM
  refine ⟨?_, ?_, ?_, ?_, ?_⟩
  · cases modifier <;>
      simp only [addResult, fieldsInRange] <;>
      exact ⟨by first | exact hda0 | exact (hfm _).1,
             by first | exact hda1 | exact (hfm _).2,
             by first | exact hdb0 | exact (hfm _).1,
             by first | exact hdb1 | exact (hfm _).2⟩
  · cases modifier <;>
      simp only [subResult, fieldsInRange] <;>
      exact ⟨by first | exact hda0 | exact (hfm _).1,
             by first | exact hda1 | exact (hfm _).2,
             by first | exact hdb0 | exact (hfm _).1,
             by first | exact hdb1 | exact (hfm _).2⟩
  · cases modifier <;>
      simp only [mulResult, fieldsInRange] <;>
      exact ⟨by first | exact hda0 | exact (hfm _).1,
             by first | exact hda1 | exact (hfm _).2,
             by first | exact hdb0 | exact (hfm _).1,
             by first | exact hdb1 | exact (hfm _).2⟩
  · intro nd h
    cases modifier
    case A =>
      by_cases hz : src.a_value = 0
      · simp [divResult, hz] at h
      · simp only [divResult, if_neg hz] at h
        obtain rfl := Option.some.inj h
        exact ⟨(fdiv_in_range hda0 hda1 hsa0 hz).1,
               (fdiv_in_range hda0 hda1 hsa0 hz).2, hdb0, hdb1⟩
    case B =>
      by_cases hz : src.b_value = 0
      · simp [divResult, hz] at h
      · simp only [divResult, if_neg hz] at h
        obtain rfl := Option.some.inj h
        exact ⟨hda0, hda1, (fdiv_in_range hdb0 hdb1 hsb0 hz).1,
               (fdiv_in_range hdb0 hdb1 hsb0 hz).2⟩
    case AB =>
      by_cases hz : src.a_value = 0
      · simp [divResult, hz] at h
      · simp only [divResult, if_neg hz] at h
        obtain rfl := Option.some.inj h
        exact ⟨hda0, hda1, (fdiv_in_range hdb0 hdb1 hsa0 hz).1,
               (fdiv_in_range hdb0 hdb1 hsa0 hz).2⟩
    case BA =>
      by_cases hz : src.b_value = 0
      · simp [divResult, hz] at h
      · simp only [divResult, if_neg hz] at h
        obtain rfl := Option.some.inj h
        exact ⟨(fdiv_in_range hda0 hda1 hsb0 hz).1,
               (fdiv_in_range hda0 hda1 hsb0 hz).2, hdb0, hdb1⟩
    case F =>
      by_cases hz : src.a_value = 0 ∨ src.b_value = 0
      · simp [divResult, hz] at h
      · simp only [divResult, if_neg hz] at h
        obtain rfl := Option.some.inj h
        push_neg at hz
        exact ⟨(fdiv_in_range hda0 hda1 hsa0 hz.1).1,
               (fdiv_in_range hda0 hda1 hsa0 hz.1).2,
               (fdiv_in_range hdb0 hdb1 hsb0 hz.2).1,
               (fdiv_in_range hdb0 hdb1 hsb0 hz.2).2⟩
    case I =>
      by_cases hz : src.a_value = 0 ∨ src.b_value = 0
      · simp [divResult, hz] at h
      · simp only [divResult, if_neg hz] at h
        obtain rfl := Option.some.inj h
        push_neg at hz
        exact ⟨(fdiv_in_range hda0 hda1 hsa0 hz.1).1,
               (fdiv_in_range hda0 hda1 hsa0 hz.1).2,
               (fdiv_in_range hdb0 hdb1 hsb0 hz.2).1,
               (fdiv_in_range hdb0 hdb1 hsb0 hz.2).2⟩
    case X =>
      by_cases hz : src.b_value = 0 ∨ src.a_value = 0
      · simp [divResult, hz] at h
      · simp only [divResult, if_neg hz] at h
        obtain rfl := Option.some.inj h
        push_neg at hz
        exact ⟨(fdiv_in_range hda0 hda1 hsb0 hz.1).1,
               (fdiv_in_range hda0 hda1 hsb0 hz.1).2,
               (fdiv_in_range hdb0 hdb1 hsa0 hz.2).1,
               (fdiv_in_range hdb0 hdb1 hsa0 hz.2).2⟩
  · intro nd h
    cases modifier
    case A =>
      by_cases hz : src.a_value = 0
      · simp [modResult, hz] at h
      · simp only [modResult, if_neg hz] at h
        obtain rfl := Option.some.inj h
        exact ⟨(fmod_in_range _ hsa0 hsa1 hz).1,
               (fmod_in_range _ hsa0 hsa1 hz).2, hdb0, hdb1⟩
    case B =>
      by_cases hz : src.b_value = 0
      · simp [modResult, hz] at h
      · simp only [modResult, if_neg hz] at h
        obtain rfl := Option.some.inj h
        exact ⟨hda0, hda1, (fmod_in_range _ hsb0 hsb1 hz).1,
               (fmod_in_range _ hsb0 hsb1 hz).2⟩
    case AB =>
      by_cases hz : src.a_value = 0
      · simp [modResult, hz] at h
      · simp only [modResult, if_neg hz] at h
        obtain rfl := Option.some.inj h
        exact ⟨hda0, hda1, (fmod_in_range _ hsa0 hsa1 hz).1,
               (fmod_in_range _ hsa0 hsa1 hz).2⟩
    case BA =>
      by_cases hz : src.b_value = 0
      · simp [modResult, hz] at h
      · simp only [modResult, if_neg hz] at h
        obtain rfl := Option.some.inj h
        exact ⟨(fmod_in_range _ hsb0 hsb1 hz).1,
               (fmod_in_range _ hsb0 hsb1 hz).2, hdb0, hdb1⟩
    case F =>
      by_cases hz : src.a_value = 0 ∨ src.b_value = 0
      · simp [modResult, hz] at h
      · simp only [modResult, if_neg hz] at h
        obtain rfl := Option.some.inj h
        push_neg at hz
        exact ⟨(fmod_in_range _ hsa0 hsa1 hz.1).1,
               (fmod_in_range _ hsa0 hsa1 hz.1).2,
               (fmod_in_range _ hsb0 hsb1 hz.2).1,
               (fmod_in_range _ hsb0 hsb1 hz.2).2⟩
    case I =>
      by_cases hz : src.a_value = 0 ∨ src.b_value = 0
      · simp [modResult, hz] at h
      · simp only [modResult, if_neg hz] at h
        obtain rfl := Option.some.inj h
        push_neg at hz
        exact ⟨(fmod_in_range _ hsa0 hsa1 hz.1).1,
               (fmod_in_range _ hsa0 hsa1 hz.1).2,
               (fmod_in_range _ hsb0 hsb1 hz.2).1,
               (fmod_in_range _ hsb0 hsb1 hz.2).2⟩
    case X =>
      by_cases hz : src.b_value = 0 ∨ src.a_value = 0
      · simp [modResult, hz] at h
      · simp only [modResult, if_neg hz] at h
        obtain rfl := Option.some.inj h
        push_neg at hz
        exact ⟨(fmod_in_range _ hsb0 hsb1 hz.1).1,
               (fmod_in_range _ hsb0 hsb1 hz.1).2,
               (fmod_in_range _ hsa0 hsa1 hz.2).1,
               (fmod_in_range _ hsa0 hsa1 hz.2).2⟩

/-- Witness for the amended arithmetic-range claim at `M = 8`,
modifier `F`, concrete in-range instructions. -/
theorem arith_fields_in_range_witness :
    fieldsInRange 8 (addResult 8 Modifier.F
      { a_value := 5, b_value := 7 } { a_value := 6, b_value := 3 }) ∧
    fieldsInRange 8 { a_value := 1, b_value := 0 } := by
  have h := arith_fields_in_range 8 Modifier.F
    { a_value := 5, b_value := 7 } { a_value := 6, b_value := 3 }
    (by decide) (by exact ⟨by decide, by decide, by decide, by decide⟩)
    (by exact ⟨by decide, by decide, by decide, by decide⟩)
  exact ⟨h.1, h.2.2.2.1 { a_value := 1, b_value := 0 } (by decide)⟩

theorem validCandidate_iff (M minDist : Int) (lengths positions : List Int)
    (pos : Int) :
    validCandidate M minDist lengths positions pos = true ↔
      ∀ i : Nat, i < positions.length →
        max (lengths.getD i 0) (lengths.getD positions.length 0) + minDist ≤
          circularMinDist M pos (positions.getD i 0) := by
  unfold validCandidate
  rw [List.all_eq_true]
  constructor
  · intro h i hi
    have := h i (List.mem_range.mpr hi)
    simpa [not_lt] using this
  · intro h i hi
    have := h i (List.mem_range.mp hi)
    simpa [not_lt] using this

theorem pairwiseSpaced_snoc (M minDist : Int) (lengths positions : List Int)
    (pos : Int) (h : pairwiseSpaced M minDist lengths positions)
    (hv : validCandidate M minDist lengths positions pos = true) :
    pairwiseSpaced M minDist lengths (positions ++ [pos]) := by
  intro j i hji hi
  rw [List.length_append, List.length_singleton] at hi
  by_cases hilt : i < positions.length
  · rw [List.getD_append _ _ _ _ hilt,
      List.getD_append _ _ _ _ (hji.trans hilt)]
    exact h j i hji hilt
  · have hieq : i = positions.length := by omega
    subst hieq
    rw [List.getD_append _ _ _ _ hji,
      List.getD_append_right _ _ _ _ (le_refl _)]
    simp only [Nat.sub_self, List.getD_cons_zero]
    exact (validCandidate_iff M minDist lengths positions pos).mp hv j hji

theorem genLoop_spaced (M minDist : Int) (n : Nat) (lengths : List Int)
    (samples : Nat → Int) :
    ∀ (fuel attempts : Nat) (positions : List Int),
      pairwiseSpaced M minDist lengths positions →
      pairwiseSpaced M minDist lengths
        (genLoop M minDist n lengths samples attempts fuel positions) := by
  intro fuel
  induction fuel with
  | zero => intro attempts positions h; exact h
  | succ fuel ih =>
    intro attempts positions h
    show pairwiseSpaced M minDist lengths
      (genLoop M minDist n lengths samples attempts (fuel + 1) positions)
    unfold genLoop
    by_cases hlen : positions.length < n
    · rw [if_pos hlen]
      by_cases hv : validCandidate M minDist lengths positions
          (samples attempts) = true
      · simp only [hv, if_true]
        exact ih (attempts + 1) _
          (pairwiseSpaced_snoc M minDist lengths positions _ h hv)
      · simp only [eq_false_of_ne_true hv, Bool.false_eq_true, if_false]
        exact ih (attempts + 1) _ h
    · rw [if_neg hlen]
      exact h

/-- C6 (amended): the position generator accepts a candidate exactly when,
for every already-placed warrior, the minimum circular distance is AT
LEAST (not strictly greater than) `max(len(other), len(new)) +
min_distance`; if after 1000 total sampling attempts (successful ones
included) fewer than `num_warriors` positions were placed it falls back,
without raising, to equal spacing `i * (M // num_warriors)`; and any
non-fallback result is pairwise spaced accordingly. -/
theorem generate_positions_spec (M minDist : Int) (n : Nat)
    (lengths : List Int) (samples : Nat → Int) :
    (∀ positions pos,
      validCandidate M minDist lengths positions pos = true ↔
        ∀ i : Nat, i < positions.length →
          max (lengths.getD i 0) (lengths.getD positions.length 0) + minDist ≤
            circularMinDist M pos (positions.getD i 0)) ∧
    ((genLoop M minDist n lengths samples 0 1000 []).length < n →
      generatePositions M minDist n lengths samples =
        (List.range n).map (fun i => (i : Int) * Int.fdiv M (n : Int))) ∧
    (generatePositions M minDist n lengths samples =
        (List.range n).map (fun i => (i : Int) * Int.fdiv M (n : Int)) ∨
      pairwiseSpaced M minDist lengths
        (generatePositions M minDist n lengths samples)) := by
  refine ⟨fun positions pos => validCandidate_iff M minDist lengths
    positions pos, ?_, ?_⟩
  · intro h
    unfold generatePositions
    rw [if_pos h]
  · by_cases h : (genLoop M minDist n lengths samples 0 1000 []).length < n
    · left
      unfold generatePositions
      rw [if_pos h]
    · right
      unfold generatePositions
      rw [if_neg h]
      exact genLoop_spaced M minDist n lengths samples 1000 0 []
        (fun j i hji hi => absurd hi (by simp))

/-- C6 counterexample: with core size 100, `min_distance` 10 and two
warriors of length 5 each, the required distance is 15 and the candidate
15 (after 0) sits at circular distance EXACTLY 15 — not strictly greater —
yet it is accepted and the generator returns `[0, 15]`.  Acceptance
therefore does not require the distance to EXCEED the bound. -/
theorem gen_positions_exceeds_cex :
    generatePositions 100 10 2 [5, 5] cexSamples = [0, 15] ∧
    validCandidate 100 10 [5, 5] [0] 15 = true ∧
    circularMinDist 100 15 0 = 15 ∧
    max (([5, 5] : List Int).getD 0 0) (([5, 5] : List Int).getD 1 0) +
      10 = 15 ∧
    ¬ ((15 : Int) < 15) := by
  refine ⟨by decide, by decide, by decide, by decide, by decide⟩

/-- Witness for the amended position-generator claim: the acceptance
characterization applied at a concrete boundary configuration. -/
theorem generate_positions_spec_witness :
    validCandidate 100 10 [5, 5] [0] 16 = true := by
  have h := (generate_positions_spec 100 10 2 [5, 5] cexSamples).1 [0] 16
  exact h.mpr (by decide)

theorem resultScore_nonneg (r : MatchResult) : 0 ≤ resultScore r := by
  unfold resultScore
  rcases r.winner with _ | n
  · norm_num
  · rcases n with _ | n <;> norm_num

theorem resultScore_le_three (r : MatchResult) : resultScore r ≤ 3 := by
  unfold resultScore
  rcases r.winner with _ | n
  · norm_num
  · rcases n with _ | n <;> norm_num

theorem sum_scores_nonneg (l : List MatchResult) :
    0 ≤ (l.map resultScore).sum := by
  apply List.sum_nonneg
  intro x hx
  obtain ⟨r, _, rfl⟩ := List.mem_map.mp hx
  exact resultScore_nonneg r

theorem sum_scores_le (l : List MatchResult) :
    (l.map resultScore).sum ≤ 3 * (l.length : ℚ) := by
  induction l with
  | nil => simp
  | cons r t ih =>
    simp only [List.map_cons, List.sum_cons, List.length_cons]
    push_cast
    linarith [resultScore_le_three r]

theorem resultScoreCfg_default (r : MatchResult) :
    resultScoreCfg {} r = resultScore r := by
  unfold resultScoreCfg resultScore
  rcases r.winner with _ | n
  · rfl
  · rcases n with _ | n <;> rfl

/-- C7: fitness evaluation returns `(0, {})` on an empty opponent list;
on a non-empty list it awards 3/1/0 per match and returns
`total / (3 * |opponents|)`, which lies in `[0, 1]`; and
`FitnessEvaluator.evaluate` under the default scoring config computes the
same function as `evaluate_fitness`. -/
theorem evaluate_fitness_spec :
    (evaluateFitness [] = (0, []) ∧ evaluatorEvaluate {} [] = (0, [])) ∧
    (∀ results : List MatchResult, results ≠ [] →
      (evaluateFitness results).1 =
        (results.map resultScore).sum / (3 * (results.length : ℚ)) ∧
      0 ≤ (evaluateFitness results).1 ∧
      (evaluateFitness results).1 ≤ 1 ∧
      evaluatorEvaluate {} results = evaluateFitness results) := by
  refine ⟨⟨rfl, rfl⟩, ?_⟩
  intro results hne
  have hlen : 0 < (results.length : ℚ) := by
    have := List.length_pos.mpr hne
    exact_mod_cast this
  have hpos : (0 : ℚ) < 3 * (results.length : ℚ) := by linarith
  have hie : results.isEmpty = false := by
    simpa [List.isEmpty_iff] using hne
  have hfit : (evaluateFitness results).1 =
      (results.map resultScore).sum / (3 * (results.length : ℚ)) := by
    unfold evaluateFitness
    rw [hie]
    simp only [Bool.false_eq_true, if_false, if_pos hpos]
  refine ⟨hfit, ?_, ?_, ?_⟩
  · rw [hfit]
    exact div_nonneg (sum_scores_nonneg results) hpos.le
  · rw [hfit, div_le_one hpos]
    exact sum_scores_le results
  · unfold evaluatorEvaluate evaluateFitness
    rw [show resultScoreCfg {} = resultScore from funext resultScoreCfg_default]

/-- Witness for the fitness-evaluation claim on a concrete
one-win-one-loss opponent list. -/
theorem evaluate_fitness_spec_witness :
    (evaluateFitness [⟨some 0, []⟩, ⟨some 1, []⟩]).1 = 1 / 2 ∧
    0 ≤ (evaluateFitness [⟨some 0, []⟩, ⟨some 1, []⟩]).1 ∧
    (evaluateFitness [⟨some 0, []⟩, ⟨some 1, []⟩]).1 ≤ 1 := by
  have h := evaluate_fitness_spec.2 [⟨some 0, []⟩, ⟨some 1, []⟩]
    (by intro hc; cases hc)
  refine ⟨?_, h.2.1, h.2.2.1⟩
  rw [h.1]
  norm_num [resultScore]

/-- C8 (amended): the only validation `generate_random` / `mutate` apply
to the parsed LLM output is non-emptiness (plus the exception path): an
empty or failed result yields the fallback warrior and bumps
`parse_failures`; any non-empty parsed warrior is returned unchanged — no
upper length bound is checked. -/
theorem generator_validation (st : GenStats) (r : Except Unit Warrior)
    (fb : Warrior) :
    (((generateRandom st r fb).2 = fb ∧
      (generateRandom st r fb).1.parse_failures = st.parse_failures + 1 ∧
      (generateRandom st r fb).1.generations = st.generations + 1) ∨
     (∃ w, r = Except.ok w ∧ w.instructions.isEmpty = false ∧
       (generateRandom st r fb).2 = w ∧
       (generateRandom st r fb).1.parse_failures = st.parse_failures ∧
       (generateRandom st r fb).1.generations = st.generations + 1)) ∧
    (((mutateOp st r fb).2 = fb ∧
      (mutateOp st r fb).1.parse_failures = st.parse_failures + 1 ∧
      (mutateOp st r fb).1.mutations = st.mutations + 1) ∨
     (∃ w, r = Except.ok w ∧ w.instructions.isEmpty = false ∧
       (mutateOp st r fb).2 = w ∧
       (mutateOp st r fb).1.parse_failures = st.parse_failures ∧
       (mutateOp st r fb).1.mutations = st.mutations + 1)) := by
  constructor
  · rcases r with e | w
    · left
      exact ⟨rfl, rfl, rfl⟩
    · by_cases h : w.instructions.isEmpty
      · left
        refine ⟨?_, ?_, ?_⟩ <;> simp [generateRandom, h]
      · right
        refine ⟨w, rfl, by simpa using h, ?_, ?_, ?_⟩ <;>
          simp [generateRandom, h]
  · rcases r with e | w
    · left
      exact ⟨rfl, rfl, rfl⟩
    · by_cases h : w.instructions.isEmpty
      · left
        refine ⟨?_, ?_, ?_⟩ <;> simp [mutateOp, h]
      · right
        refine ⟨w, rfl, by simpa using h, ?_, ?_, ?_⟩ <;>
          simp [mutateOp, h]

/-- C8 counterexample: a parse result of 51 instructions — above the
default `max_warrior_length = 50` — passes the operator's validation
untouched: the warrior itself is returned (not the fallback) and the
parse-failure counter stays 0, for both `generate_random` and `mutate`.
The claimed `≤ L_max` validation does not exist. -/
theorem generator_no_length_check_cex :
    bigW.instructions.length = 51 ∧
    ({} : GenerationConfig).max_warrior_length = 50 ∧
    (generateRandom {} (Except.ok bigW) fbW).2 = bigW ∧
    (generateRandom {} (Except.ok bigW) fbW).1.parse_failures = 0 ∧
    (mutateOp {} (Except.ok bigW) fbW).2 = bigW ∧
    (mutateOp {} (Except.ok bigW) fbW).1.parse_failures = 0 := by
  refine ⟨by decide, by decide, by decide, by decide, by decide, by decide⟩

/-- Witness for the amended generator-validation claim: an LLM exception
falls back and bumps the counter. -/
theorem generator_validation_witness :
    (generateRandom {} (Except.error ()) fbW).2 = fbW ∧
    (generateRandom {} (Except.error ()) fbW).1.parse_failures = 1 := by
  have h := generator_validation {} (Except.error ()) fbW
  rcases h.1 with ⟨h1, h2, _⟩ | ⟨w, hw, _⟩
  · exact ⟨h1, h2⟩
  · cases hw

theorem tryAdd_axes (me : MAPElites) (s : Warrior) (f : ℚ)
    (mtr : List (String × ℚ)) : (tryAdd me s f mtr).1.axes = me.axes := by
  unfold tryAdd
  dsimp only
  cases dictGet me.archive (getCellIndex me.axes mtr) with
  | none => rfl
  | some inc =>
    dsimp only
    split <;> rfl

/-- Case analysis of `_try_add`: empty cell inserts, strictly better
fitness replaces, otherwise the archive is untouched and `False` is
returned. -/
theorem tryAdd_cases (me : MAPElites) (s : Warrior) (f : ℚ)
    (mtr : List (String × ℚ)) :
    (dictGet me.archive (getCellIndex me.axes mtr) = none ∧
      (tryAdd me s f mtr).1.archive =
        dictSet me.archive (getCellIndex me.axes mtr)
          ⟨s, f, mtr, me.generation⟩) ∨
    (∃ inc, dictGet me.archive (getCellIndex me.axes mtr) = some inc ∧
      inc.fitness < f ∧
      (tryAdd me s f mtr).1.archive =
        dictSet me.archive (getCellIndex me.axes mtr)
          ⟨s, f, mtr, me.generation⟩) ∨
    (∃ inc, dictGet me.archive (getCellIndex me.axes mtr) = some inc ∧
      ¬ inc.fitness < f ∧
      (tryAdd me s f mtr).1.archive = me.archive ∧
      (tryAdd me s f mtr).2 = false) := by
  cases hg : dictGet me.archive (getCellIndex me.axes mtr) with
  | none =>
    left
    refine ⟨rfl, ?_⟩
    unfold tryAdd
    dsimp only
    rw [hg]
  | some inc =>
    by_cases hlt : inc.fitness < f
    · right; left
      refine ⟨inc, rfl, hlt, ?_⟩
      unfold tryAdd
      dsimp only
      rw [hg]
      dsimp only
      rw [if_pos hlt]
    · right; right
      refine ⟨inc, rfl, hlt, ?_, ?_⟩ <;>
      · unfold tryAdd
        dsimp only
        rw [hg]
        dsimp only
        rw [if_neg hlt]

/-- C9: archive admission is idempotent — re-admitting the same
`(solution, fitness, metrics)` triple immediately after a first admission
leaves every archive cell unchanged (replacement demands strictly greater
fitness) and reports no update. -/
theorem try_add_idempotent (me : MAPElites) (s : Warrior) (f : ℚ)
    (mtr : List (String × ℚ)) :
    (tryAdd (tryAdd me s f mtr).1 s f mtr).1.archive =
      (tryAdd me s f mtr).1.archive ∧
    (tryAdd (tryAdd me s f mtr).1 s f mtr).2 = false := by
  have haxes := tryAdd_axes me s f mtr
  have h2 := tryAdd_cases (tryAdd me s f mtr).1 s f mtr
  rw [haxes] at h2
  rcases tryAdd_cases me s f mtr with ⟨hg, ha⟩ | ⟨inc, hg, hlt, ha⟩ |
    ⟨inc, hg, hlt, ha, _⟩
  · -- first call inserted into an empty cell
    have hcell : dictGet (tryAdd me s f mtr).1.archive
        (getCellIndex me.axes mtr) =
          some ⟨s, f, mtr, me.generation⟩ := by
      rw [ha]
      exact dictGet_dictSet_self _ _ _
    rcases h2 with ⟨hg2, _⟩ | ⟨inc2, hg2, hlt2, _⟩ |
      ⟨inc2, hg2, hlt2, ha2, hb2⟩
    · rw [hcell] at hg2; cases hg2
    · rw [hcell] at hg2
      obtain rfl := Option.some.inj hg2
      exact absurd hlt2 (lt_irrefl f)
    · exact ⟨ha2, hb2⟩
  · -- first call replaced a strictly worse incumbent
    have hcell : dictGet (tryAdd me s f mtr).1.archive
        (getCellIndex me.axes mtr) =
          some ⟨s, f, mtr, me.generation⟩ := by
      rw [ha]
      exact dictGet_dictSet_self _ _ _
    rcases h2 with ⟨hg2, _⟩ | ⟨inc2, hg2, hlt2, _⟩ |
      ⟨inc2, hg2, hlt2, ha2, hb2⟩
    · rw [hcell] at hg2; cases hg2
    · rw [hcell] at hg2
      obtain rfl := Option.some.inj hg2
      exact absurd hlt2 (lt_irrefl f)
    · exact ⟨ha2, hb2⟩
  · -- first call changed nothing
    rcases h2 with ⟨hg2, _⟩ | ⟨inc2, hg2, hlt2, _⟩ |
      ⟨inc2, hg2, hlt2, ha2, hb2⟩
    · rw [ha, hg] at hg2; cases hg2
    · rw [ha, hg] at hg2
      obtain rfl := Option.some.inj hg2
      exact absurd hlt2 hlt
    · exact ⟨ha2, hb2⟩

theorem listGetD_set_self {α : Type} (l : List α) (i : Nat) (x d : α)
    (h : i < l.length) : (l.set i x).getD i d = x := by
  rw [List.getD_eq_getElem?_getD]
  rw [List.getElem?_set_self]
  · simp
  · simpa using h

theorem listGetD_set_ne {α : Type} (l : List α) {i j : Nat} (x d : α)
    (h : i ≠ j) : (l.set i x).getD j d = l.getD j d := by
  rw [List.getD_eq_getElem?_getD, List.getD_eq_getElem?_getD,
    List.getElem?_set_ne h]

theorem normalize_toNat_lt (m : MARS) (hM : 0 < m.core_size) (x : Int) :
    (m.normalize x).toNat < m.core_size.toNat := by
  have h := fmod_bounds x hM
  unfold MARS.normalize
  omega

theorem normalize_toNat_inj (m : MARS) (hM : 0 < m.core_size) {a b : Int}
    (hlt : |a - b| < m.core_size)
    (h : (m.normalize a).toNat = (m.normalize b).toNat) : a = b := by
  have ha := fmod_bounds a hM
  have hb := fmod_bounds b hM
  have heq : Int.fmod a m.core_size = Int.fmod b m.core_size := by
    unfold MARS.normalize at h
    omega
  rw [Int.fmod_eq_emod _ hM.le, Int.fmod_eq_emod _ hM.le] at heq
  have hz : (a - b) % m.core_size = 0 :=
    Int.emod_eq_emod_iff_emod_sub_eq_zero.mp heq
  have := Int.eq_zero_of_abs_lt_dvd (Int.dvd_of_emod_eq_zero hz) hlt
  omega

theorem loadCells_misc (wid position : Int) :
    ∀ (instrs : List Instruction) (i : Nat) (m : MARS),
      (m.loadCells wid position instrs i).core_size = m.core_size ∧
      (m.loadCells wid position instrs i).core.length = m.core.length ∧
      (m.loadCells wid position instrs i).ownership.length =
        m.ownership.length ∧
      (m.loadCells wid position instrs i).warriors = m.warriors ∧
      (m.loadCells wid position instrs i).warrior_order = m.warrior_order := by
  intro instrs
  induction instrs with
  | nil => exact fun i m => ⟨rfl, rfl, rfl, rfl, rfl⟩
  | cons instr rest ih =>
    intro i m
    obtain ⟨h1, h2, h3, h4, h5⟩ := ih (i + 1)
      { m with
        core := m.core.set ((m.normalize (position + (i : Int))).toNat) instr
        ownership :=
          m.ownership.set ((m.normalize (position + (i : Int))).toNat) wid }
    unfold MARS.loadCells
    exact ⟨h1, by simpa [List.length_set] using h2,
      by simpa [List.length_set] using h3, h4, h5⟩

theorem loadCells_frame (wid position : Int) :
    ∀ (instrs : List Instruction) (i : Nat) (m : MARS) (a : Nat),
      (∀ k : Nat, k < instrs.length →
        a ≠ (m.normalize (position + ((i + k : Nat) : Int))).toNat) →
      (m.loadCells wid position instrs i).core.getD a {} =
          m.core.getD a {} ∧
      (m.loadCells wid position instrs i).ownership.getD a (-1) =
          m.ownership.getD a (-1) := by
  intro instrs
  induction instrs with
  | nil => exact fun i m a _ => ⟨rfl, rfl⟩
  | cons instr rest ih =>
    intro i m a ha
    have h0 : a ≠ (m.normalize (position + (i : Int))).toNat := by
      have := ha 0 (by simp)
      simpa using this
    obtain ⟨hr1, hr2⟩ := ih (i + 1)
      { m with
        core := m.core.set ((m.normalize (position + (i : Int))).toNat) instr
        ownership :=
          m.ownership.set ((m.normalize (position + (i : Int))).toNat) wid }
      a (by
        intro k hk
        have := ha (k + 1) (by simpa using Nat.succ_lt_succ hk)
        have harith : (i + (k + 1) : Nat) = ((i + 1) + k : Nat) := by omega
        rw [harith] at this
        exact this)
    unfold MARS.loadCells
    refine ⟨hr1.trans ?_, hr2.trans ?_⟩
    · exact listGetD_set_ne _ _ _ (fun hne => h0 hne.symm)
    · exact listGetD_set_ne _ _ _ (fun hne => h0 hne.symm)

theorem loadCells_written (wid position : Int) :
    ∀ (instrs : List Instruction) (i : Nat) (m : MARS),
      0 < m.core_size →
      m.core.length = m.core_size.toNat →
      m.ownership.length = m.core_size.toNat →
      (instrs.length : Int) ≤ m.core_size →
      ∀ j : Nat, j < instrs.length →
        (m.loadCells wid position instrs i).core.getD
            (m.normalize (position + ((i + j : Nat) : Int))).toNat {} =
          instrs.getD j {} ∧
        (m.loadCells wid position instrs i).ownership.getD
            (m.normalize (position + ((i + j : Nat) : Int))).toNat (-1) =
          wid := by
  intro instrs
  induction instrs with
  | nil => intro i m _ _ _ _ j hj; cases hj
  | cons instr rest ih =>
    intro i m hM hc ho hfit j hj
    have hlen : (rest.length : Int) + 1 ≤ m.core_size := by
      rw [List.length_cons] at hfit
      push_cast at hfit
      linarith
    rcases j with _ | j
    · -- the head cell: written now, never touched by the recursion
      have hframe := loadCells_frame wid position rest (i + 1)
        { m with
          core := m.core.set ((m.normalize (position + (i : Int))).toNat) instr
          ownership :=
            m.ownership.set ((m.normalize (position + (i : Int))).toNat) wid }
        ((m.normalize (position + (i : Int))).toNat)
        (by
          intro k hk
          intro hcontra
          have heq : position + (i : Int) =
              position + (((i + 1) + k : Nat) : Int) := by
            refine normalize_toNat_inj m hM ?_ hcontra
            have h1 : (1 + k : Int) ≤ (rest.length : Int) := by
              have := Nat.succ_le_of_lt hk
              omega
            have : |position + (i : Int) -
                (position + (((i + 1) + k : Nat) : Int))| = 1 + (k : Int) := by
              push_cast
              rw [abs_sub_comm]
              rw [show position + ((i : Int) + 1 + (k : Int)) -
                  (position + (i : Int)) = 1 + (k : Int) by ring]
              exact abs_of_nonneg (by positivity)
            rw [this]
            linarith
          push_cast at heq
          omega)
      unfold MARS.loadCells
      have haddr : (m.normalize (position + ((i + 0 : Nat) : Int))).toNat =
          (m.normalize (position + (i : Int))).toNat := by norm_num
      rw [haddr]
      refine ⟨hframe.1.trans ?_, hframe.2.trans ?_⟩
      · simpa using listGetD_set_self m.core _ instr {}
          (by rw [hc]; exact normalize_toNat_lt m hM _)
      · simpa using listGetD_set_self m.ownership _ wid (-1)
          (by rw [ho]; exact normalize_toNat_lt m hM _)
    · -- a later cell: handled by the recursion
      have hrec := ih (i + 1)
        { m with
          core := m.core.set ((m.normalize (position + (i : Int))).toNat) instr
          ownership :=
            m.ownership.set ((m.normalize (position + (i : Int))).toNat) wid }
        hM (by simpa [List.length_set] using hc)
        (by simpa [List.length_set] using ho)
        (by linarith) j (by simpa using Nat.lt_of_succ_lt_succ hj)
      unfold MARS.loadCells
      have harith : ((i + (j + 1) : Nat) : Int) = (((i + 1) + j : Nat) : Int) := by
        push_cast
        ring
      rw [show (m.normalize (position + ((i + (j + 1) : Nat) : Int))).toNat =
          (m.normalize (position + (((i + 1) + j : Nat) : Int))).toNat by
        rw [harith]]
      exact ⟨hrec.1, hrec.2⟩

/-- C10: `load_warrior` is atomic in its length check — an over-long
warrior is rejected with `False` and the machine is returned untouched;
a fitting warrior is written instruction by instruction at consecutive
normalized addresses with ownership tagged, a state with the single
process `normalize (position + start_offset)` is registered, the warrior
joins the round-robin order, and `True` is returned.  (The hypotheses are
the `__init__` well-formedness invariants: positive core size, core and
ownership lists of length `core_size`, and a program that fits in the
core.) -/
theorem load_warrior_spec (m : MARS) (w : Warrior) (position wid : Int)
    (hM : 0 < m.core_size)
    (hc : m.core.length = m.core_size.toNat)
    (ho : m.ownership.length = m.core_size.toNat)
    (hfit : (w.instructions.length : Int) ≤ m.core_size) :
    ((w.instructions.length : Int) > m.max_length →
      m.loadWarrior w position wid = (m, false)) ∧
    ((w.instructions.length : Int) ≤ m.max_length →
      (m.loadWarrior w position wid).2 = true ∧
      (∀ j : Nat, j < w.instructions.length →
        (m.loadWarrior w position wid).1.mread (position + (j : Int)) =
          w.instructions.getD j {} ∧
        (m.loadWarrior w position wid).1.ownerAt (position + (j : Int)) =
          wid) ∧
      (m.loadWarrior w position wid).1.lookupWarrior wid =
        some { warrior_id := wid, name := w.name,
               processes := [m.normalize (position + w.start_offset)] } ∧
      (m.loadWarrior w position wid).1.warrior_order =
        m.warrior_order ++ [wid]) := by
  obtain ⟨hm1, hm2, hm3, hm4, hm5⟩ :=
    loadCells_misc wid position w.instructions 0 m
  constructor
  · intro hgt
    unfold MARS.loadWarrior
    rw [if_pos hgt]
  · intro hle
    have hngt : ¬ (w.instructions.length : Int) > m.max_length :=
      not_lt.mpr hle
    unfold MARS.loadWarrior
    rw [if_neg hngt]
    dsimp only
    refine ⟨rfl, ?_, ?_, ?_⟩
    · intro j hj
      have hw := loadCells_written wid position w.instructions 0 m hM hc ho
        hfit j hj
      have hnorm : ∀ x : Int,
          MARS.normalize
            { m.loadCells wid position w.instructions 0 with
              warriors := dictSet
                (m.loadCells wid position w.instructions 0).warriors wid
                { warrior_id := wid, name := w.name,
                  processes := [(m.loadCells wid position
                    w.instructions 0).normalize (position + w.start_offset)] }
              warrior_order := (m.loadCells wid position
                w.instructions 0).warrior_order ++ [wid] } x =
            m.normalize x := by
        intro x
        show Int.fmod x (m.loadCells wid position w.instructions 0).core_size =
          Int.fmod x m.core_size
        rw [hm1]
      constructor
      · show (m.loadCells wid position w.instructions 0).core.getD _ {} = _
        rw [hnorm]
        simpa using hw.1
      · show (m.loadCells wid position w.instructions 0).ownership.getD _
          (-1) = _
        rw [hnorm]
        simpa using hw.2
    · show dictGet (dictSet _ wid _) wid = _
      rw [dictGet_dictSet_self]
      have : (m.loadCells wid position w.instructions 0).normalize
          (position + w.start_offset) =
            m.normalize (position + w.start_offset) := by
        show Int.fmod _ (m.loadCells wid position w.instructions 0).core_size =
          Int.fmod _ m.core_size
        rw [hm1]
      rw [this]
    · show (m.loadCells wid position w.instructions 0).warrior_order ++ [wid] =
        m.warrior_order ++ [wid]
      rw [hm5]

/-- Witness for the load_warrior claim at a concrete two-instruction
warrior loaded at position 3 of a fresh 8-cell MARS. -/
theorem load_warrior_spec_witness :
    ((mkMARS 8 64 8000 100 100).loadWarrior
      { name := "w", instructions := [{}, {}] } 3 7).2 = true ∧
    ((mkMARS 8 64 8000 100 100).loadWarrior
      { name := "w", instructions := [{}, {}] } 3 7).1.warrior_order =
      [7] := by
  have h := load_warrior_spec (mkMARS 8 64 8000 100 100)
    { name := "w", instructions := [{}, {}] } 3 7
    (by decide) (by decide) (by decide) (by decide)
  have h2 := h.2 (by decide)
  refine ⟨h2.1, ?_⟩
  rw [h2.2.2.2]
  rfl

end CoreWar
